import Mathlib

/-!
Verification of the regular-expression longest-matching-substring solver.

The program is embedded shallowly: the C++ `Operand` structure becomes a Lean
structure whose boolean tables are total functions (entries outside the ranges
the C++ loops touch are `false`, matching the zero-initialised vectors); the
accumulating `|=` loops become `List.foldl` with boolean or over the same index
ranges; the exception-based evaluator and solver become `Except`-valued
functions.
-/

namespace Solution

/-- The designated epsilon symbol of the alphabet (`const char EPSILON = '1'`). -/
def EPSILON : Char := '1'

/-- Operator codes (`enum OperatorType`). -/
inductive OperatorType where
  | PLUS
  | MULTIPLY
  | KLEENE_STAR
deriving DecidableEq

/-- The language-description record (`struct Operand`).  The C++ vectors of size
`wordLength + 1` become total boolean functions; indices the constructors and
loops never write hold `false`, exactly like the zero-initialised vectors. -/
@[ext] structure Operand where
  containsSubstring : Nat → Nat → Bool
  containsEpsilon : Bool
  containsWordAsSubstring : Bool
  containsSuffixEqualsToPrefix : Nat → Bool
  containsPrefixEqualsToSuffix : Nat → Bool
  wordLength : Nat

/-- Character of `word` at position `i` (in-range accesses only are ever
meaningful, mirroring `word[i]` on a `std::string`). -/
def charAt (word : List Char) (i : Nat) : Char := word.getD i EPSILON

/-- Single-symbol constructor `Operand(char character, const string &word)`. -/
def Operand.leaf (character : Char) (word : List Char) : Operand :=
  if character = EPSILON then
    { containsSubstring := fun _ _ => false
      containsEpsilon := true
      containsWordAsSubstring := false
      containsSuffixEqualsToPrefix := fun _ => false
      containsPrefixEqualsToSuffix := fun _ => false
      wordLength := word.length }
  else
    { containsSubstring := fun startPosition len =>
        if startPosition < word.length ∧ len = 1 then
          decide (charAt word startPosition = character)
        else false
      containsEpsilon := false
      containsWordAsSubstring := decide (word.length = 1 ∧ charAt word 0 = character)
      containsSuffixEqualsToPrefix := fun len =>
        if len = 1 then decide (charAt word 0 = character) else false
      containsPrefixEqualsToSuffix := fun len =>
        if len = 1 then decide (charAt word (word.length - 1) = character) else false
      wordLength := word.length }

/-- Empty-language constructor `Operand(ulong wordLength)`. -/
def Operand.emptyLanguage (wordLength : Nat) : Operand :=
  { containsSubstring := fun _ _ => false
    containsEpsilon := false
    containsWordAsSubstring := false
    containsSuffixEqualsToPrefix := fun _ => false
    containsPrefixEqualsToSuffix := fun _ => false
    wordLength := wordLength }

/-- Union `Operand::operator+`: pointwise boolean or over the loop ranges of the
source; entries outside those ranges keep the left operand's value, exactly as
the in-place `|=` loops leave them. -/
def Operand.add (left right : Operand) : Operand :=
  { containsSubstring := fun startPosition len =>
      if startPosition < left.wordLength ∧ len ≤ left.wordLength - startPosition then
        left.containsSubstring startPosition len || right.containsSubstring startPosition len
      else left.containsSubstring startPosition len
    containsEpsilon := left.containsEpsilon || right.containsEpsilon
    containsWordAsSubstring := left.containsWordAsSubstring || right.containsWordAsSubstring
    containsSuffixEqualsToPrefix := fun len =>
      if 1 ≤ len ∧ len ≤ left.wordLength then
        left.containsSuffixEqualsToPrefix len || right.containsSuffixEqualsToPrefix len
      else left.containsSuffixEqualsToPrefix len
    containsPrefixEqualsToSuffix := fun len =>
      if 1 ≤ len ∧ len ≤ left.wordLength then
        left.containsPrefixEqualsToSuffix len || right.containsPrefixEqualsToSuffix len
      else left.containsPrefixEqualsToSuffix len
    wordLength := left.wordLength }

/-- One disjunct of the split-point loop in
`Operand::updateContainsSubstringForMultiply`: split the window at `k`
(`prefixLength` in the source), with the `k = 0` and `k = len` boundary cases
resolved through `containsEpsilon`. -/
def substringTermForMultiply (left right : Operand) (startPosition len k : Nat) : Bool :=
  if k = 0 then left.containsEpsilon && right.containsSubstring startPosition len
  else if k = len then right.containsEpsilon && left.containsSubstring startPosition len
  else left.containsSubstring startPosition k && right.containsSubstring (startPosition + k) (len - k)

/-- The substring table built by `Operand::updateContainsSubstringForMultiply`:
the triple loop runs over `startPosition < L`, `1 ≤ len ≤ L - startPosition`,
`0 ≤ k ≤ len`, or-ing `substringTermForMultiply` into a table initialised to
`false`; untouched entries stay `false`. -/
def containsSubstringForMultiply (L : Nat) (left right : Operand)
    (startPosition len : Nat) : Bool :=
  if startPosition < L ∧ 1 ≤ len ∧ len ≤ L - startPosition then
    (List.range (len + 1)).foldl
      (fun acc k => acc || substringTermForMultiply left right startPosition len k) false
  else false

/-- The whole-word flag built by the first loop of
`Operand::updateContainsWordAsSubstringForMultiply`. -/
def containsWordAsSubstringForMultiply (L : Nat) (left right : Operand) : Bool :=
  (List.range' 1 (L - 1)).foldl
    (fun acc p =>
      acc || (left.containsSuffixEqualsToPrefix p && right.containsPrefixEqualsToSuffix (L - p)))
    (left.containsWordAsSubstring || right.containsWordAsSubstring)

/-- The suffix-equals-prefix vector built by the second loop of
`Operand::updateContainsWordAsSubstringForMultiply`. -/
def suffixEqualsToPrefixForMultiply (L : Nat) (left right : Operand) (p : Nat) : Bool :=
  if 1 ≤ p ∧ p < L then
    (List.range' 1 (p - 1)).foldl
      (fun acc q =>
        acc || (right.containsSubstring q (p - q) && left.containsSuffixEqualsToPrefix q))
      (right.containsSuffixEqualsToPrefix p ||
        (left.containsSuffixEqualsToPrefix p && right.containsEpsilon))
  else false

/-- The prefix-equals-suffix vector built by the third loop of
`Operand::updateContainsWordAsSubstringForMultiply`. -/
def prefixEqualsToSuffixForMultiply (L : Nat) (left right : Operand) (s : Nat) : Bool :=
  if 1 ≤ s ∧ s < L then
    (List.range' 1 (s - 1)).foldl
      (fun acc r =>
        acc || (left.containsSubstring (L - s) (s - r) && right.containsPrefixEqualsToSuffix r))
      (left.containsPrefixEqualsToSuffix s ||
        (left.containsEpsilon && right.containsPrefixEqualsToSuffix s))
  else false

/-- Concatenation `Operand::operator*`: assembles a fresh result (initialised by
the empty-language constructor) from the two update methods; the word length is
the left operand's, as in the source (`this->wordLength`). -/
def Operand.mul (left right : Operand) : Operand :=
  { containsSubstring := containsSubstringForMultiply left.wordLength left right
    containsEpsilon := left.containsEpsilon && right.containsEpsilon
    containsWordAsSubstring := containsWordAsSubstringForMultiply left.wordLength left right
    containsSuffixEqualsToPrefix := suffixEqualsToPrefixForMultiply left.wordLength left right
    containsPrefixEqualsToSuffix := prefixEqualsToSuffixForMultiply left.wordLength left right
    wordLength := left.wordLength }

/-- `Expression::isOperator`. -/
def isOperator (c : Char) : Bool := c = '+' || c = '.' || c = '*'

/-- `Expression::isSymbolOfAlphabet`. -/
def isSymbolOfAlphabet (c : Char) : Bool := c = 'a' || c = 'b' || c = 'c' || c = EPSILON

/-- `Expression::checkWord`: rejects the empty word and any character that is
the epsilon symbol or not in the alphabet. -/
def checkWord (word : List Char) : Except String Unit :=
  if word.isEmpty then Except.error "Word is empty"
  else
    word.foldlM
      (fun _ c =>
        if c = EPSILON || !isSymbolOfAlphabet c then
          Except.error ("Unknown symbol in word: " ++ String.mk [c])
        else Except.ok ())
      ()

/-- `Expression::operatorCode`. -/
def operatorCode (c : Char) : Except String OperatorType :=
  if c = '+' then Except.ok OperatorType.PLUS
  else if c = '.' then Except.ok OperatorType.MULTIPLY
  else if c = '*' then Except.ok OperatorType.KLEENE_STAR
  else Except.error ("Unknown operator symbol: " ++ String.mk [c])

/-- The iteration of `Expression::calculateKleeneStar`: `n` repetitions of
`nextPow := currentPow * startOperand; nextOperand := currentOperand + nextPow`. -/
def kleeneLoop (e : Operand) : Nat → Operand → Operand → Operand
  | 0, _, currentOperand => currentOperand
  | n + 1, currentPow, currentOperand =>
      let nextPow := currentPow.mul e
      kleeneLoop e n nextPow (currentOperand.add nextPow)

/-- The operand pushed by `Expression::calculateKleeneStar` after `n`
iterations, starting from the epsilon leaf for both the running power and the
accumulated operand. -/
def kleeneStarN (e : Operand) (word : List Char) (n : Nat) : Operand :=
  kleeneLoop e n (Operand.leaf EPSILON word) (Operand.leaf EPSILON word)

/-- `Expression::calculateKleeneStar` acting on the evaluation stack: pops one
operand and pushes the `2 * word.length + 2`-fold iteration. -/
def calculateKleeneStar (word : List Char) (stack : List Operand) :
    Except String (List Operand) :=
  match stack with
  | e :: rest => Except.ok (kleeneStarN e word (2 * word.length + 2) :: rest)
  | [] => Except.error "Missing operands"

/-- `Expression::calculateOperator`: Kleene star pops one operand; the two
binary operators pop right then left and push the combination. -/
def calculateOperator (word : List Char) (stack : List Operand) (op : OperatorType) :
    Except String (List Operand) :=
  if op = OperatorType.KLEENE_STAR then calculateKleeneStar word stack
  else
    match stack with
    | right :: left :: rest =>
        Except.ok ((if op = OperatorType.PLUS then left.add right else left.mul right) :: rest)
    | _ => Except.error "Missing operands"

/-- One step of the evaluation loop in
`Expression::calculateValueOfExpression`: operators are dispatched first, then
alphabet symbols are pushed as leaves, anything else is a parse error. -/
def step (word : List Char) (stack : List Operand) (c : Char) :
    Except String (List Operand) :=
  if isOperator c then
    match operatorCode c with
    | Except.ok op => calculateOperator word stack op
    | Except.error e => Except.error e
  else if isSymbolOfAlphabet c then Except.ok (Operand.leaf c word :: stack)
  else Except.error ("Unknown symbol in expression: " ++ String.mk [c])

/-- `Expression::calculateValueOfExpression`: validate the word, fold the token
stream over the stack, and require exactly one operand to remain. -/
def calculateValueOfExpression (expr : List Char) (word : List Char) :
    Except String Operand :=
  match checkWord word with
  | Except.error e => Except.error e
  | Except.ok _ =>
    match List.foldlM (step word) ([] : List Operand) expr with
    | Except.error e => Except.error e
    | Except.ok stack =>
      match stack with
      | [op] => Except.ok op
      | _ :: _ :: _ => Except.error "Too much operands"
      | [] => Except.error "Missing operands"

/-- `Solver::solve`: evaluate the expression against every contiguous substring
`word.substr(startPosition, len)` and keep the maximum matching length; an
evaluation error aborts the whole computation. -/
def solve (expr : List Char) (word : List Char) : Except String Nat :=
  List.foldlM
    (fun answer startPosition =>
      List.foldlM
        (fun ans len =>
          match calculateValueOfExpression expr ((word.drop startPosition).take len) with
          | Except.error e => Except.error e
          | Except.ok result =>
              Except.ok (if result.containsWordAsSubstring then max ans len else ans))
        answer (List.range' 1 (word.length - startPosition)))
    0 (List.range word.length)

/-- The externally observable membership predicate of one trial: the
`matchesWholeW` flag of a successful evaluation (`false` on a parse error). -/
def evalMatches (expr : List Char) (word : List Char) : Bool :=
  match calculateValueOfExpression expr word with
  | Except.ok result => result.containsWordAsSubstring
  | Except.error _ => false

/-! ### Basic boolean-fold lemmas -/

lemma bool_eq_of_iff {a b : Bool} (h : a = true ↔ b = true) : a = b := by
  cases a <;> cases b <;> simp_all

lemma foldl_or_eq (l : List Nat) (f : Nat → Bool) (b : Bool) :
    l.foldl (fun acc k => acc || f k) b = (b || l.any f) := by
  induction l generalizing b with
  | nil => simp
  | cons x t ih => simp [List.foldl_cons, ih, Bool.or_assoc]

/-! ### The concatenation update loops as explicit existential formulas -/

lemma containsWordAsSubstringForMultiply_eq_true_iff (L : Nat) (left right : Operand) :
    containsWordAsSubstringForMultiply L left right = true ↔
      left.containsWordAsSubstring = true ∨ right.containsWordAsSubstring = true ∨
      ∃ p, 1 ≤ p ∧ p < L ∧ left.containsSuffixEqualsToPrefix p = true ∧
        right.containsPrefixEqualsToSuffix (L - p) = true := by
  unfold containsWordAsSubstringForMultiply
  rw [foldl_or_eq]
  simp only [Bool.or_eq_true, List.any_eq_true, List.mem_range'_1, Bool.and_eq_true]
  constructor
  · rintro ((h | h) | ⟨p, ⟨hp1, hp2⟩, hp3, hp4⟩)
    · exact Or.inl h
    · exact Or.inr (Or.inl h)
    · exact Or.inr (Or.inr ⟨p, hp1, by omega, hp3, hp4⟩)
  · rintro (h | h | ⟨p, hp1, hp2, hp3, hp4⟩)
    · exact Or.inl (Or.inl h)
    · exact Or.inl (Or.inr h)
    · exact Or.inr ⟨p, ⟨hp1, by omega⟩, hp3, hp4⟩

lemma suffixEqualsToPrefixForMultiply_eq_true_iff (L : Nat) (left right : Operand)
    (p : Nat) (hp1 : 1 ≤ p) (hp2 : p < L) :
    suffixEqualsToPrefixForMultiply L left right p = true ↔
      right.containsSuffixEqualsToPrefix p = true ∨
      (left.containsSuffixEqualsToPrefix p = true ∧ right.containsEpsilon = true) ∨
      ∃ q, 1 ≤ q ∧ q < p ∧ left.containsSuffixEqualsToPrefix q = true ∧
        right.containsSubstring q (p - q) = true := by
  unfold suffixEqualsToPrefixForMultiply
  rw [if_pos ⟨hp1, hp2⟩, foldl_or_eq]
  simp only [Bool.or_eq_true, List.any_eq_true, List.mem_range'_1, Bool.and_eq_true]
  constructor
  · rintro ((h | h) | ⟨q, ⟨hq1, hq2⟩, hq3, hq4⟩)
    · exact Or.inl h
    · exact Or.inr (Or.inl h)
    · exact Or.inr (Or.inr ⟨q, hq1, by omega, hq4, hq3⟩)
  · rintro (h | h | ⟨q, hq1, hq2, hq3, hq4⟩)
    · exact Or.inl (Or.inl h)
    · exact Or.inl (Or.inr h)
    · exact Or.inr ⟨q, ⟨hq1, by omega⟩, hq4, hq3⟩

lemma suffixEqualsToPrefixForMultiply_out (L : Nat) (left right : Operand)
    (p : Nat) (hp : ¬ (1 ≤ p ∧ p < L)) :
    suffixEqualsToPrefixForMultiply L left right p = false := by
  unfold suffixEqualsToPrefixForMultiply
  rw [if_neg hp]

lemma prefixEqualsToSuffixForMultiply_eq_true_iff (L : Nat) (left right : Operand)
    (s : Nat) (hs1 : 1 ≤ s) (hs2 : s < L) :
    prefixEqualsToSuffixForMultiply L left right s = true ↔
      left.containsPrefixEqualsToSuffix s = true ∨
      (left.containsEpsilon = true ∧ right.containsPrefixEqualsToSuffix s = true) ∨
      ∃ r, 1 ≤ r ∧ r < s ∧ left.containsSubstring (L - s) (s - r) = true ∧
        right.containsPrefixEqualsToSuffix r = true := by
  unfold prefixEqualsToSuffixForMultiply
  rw [if_pos ⟨hs1, hs2⟩, foldl_or_eq]
  simp only [Bool.or_eq_true, List.any_eq_true, List.mem_range'_1, Bool.and_eq_true]
  constructor
  · rintro ((h | h) | ⟨r, ⟨hr1, hr2⟩, hr3, hr4⟩)
    · exact Or.inl h
    · exact Or.inr (Or.inl h)
    · exact Or.inr (Or.inr ⟨r, hr1, by omega, hr3, hr4⟩)
  · rintro (h | h | ⟨r, hr1, hr2, hr3, hr4⟩)
    · exact Or.inl (Or.inl h)
    · exact Or.inl (Or.inr h)
    · exact Or.inr ⟨r, ⟨hr1, by omega⟩, hr3, hr4⟩

lemma prefixEqualsToSuffixForMultiply_out (L : Nat) (left right : Operand)
    (s : Nat) (hs : ¬ (1 ≤ s ∧ s < L)) :
    prefixEqualsToSuffixForMultiply L left right s = false := by
  unfold prefixEqualsToSuffixForMultiply
  rw [if_neg hs]

lemma containsSubstringForMultiply_eq_true_iff (L : Nat) (left right : Operand)
    (startPosition len : Nat) (h1 : startPosition < L) (h2 : 1 ≤ len)
    (h3 : len ≤ L - startPosition) :
    containsSubstringForMultiply L left right startPosition len = true ↔
      ∃ k, k ≤ len ∧ substringTermForMultiply left right startPosition len k = true := by
  unfold containsSubstringForMultiply
  rw [if_pos ⟨h1, h2, h3⟩, foldl_or_eq]
  simp only [Bool.false_or, List.any_eq_true, List.mem_range]
  constructor
  · rintro ⟨k, hk, ht⟩
    exact ⟨k, by omega, ht⟩
  · rintro ⟨k, hk, ht⟩
    exact ⟨k, by omega, ht⟩

lemma containsSubstringForMultiply_out (L : Nat) (left right : Operand)
    (startPosition len : Nat) (h : ¬ (startPosition < L ∧ 1 ≤ len ∧ len ≤ L - startPosition)) :
    containsSubstringForMultiply L left right startPosition len = false := by
  unfold containsSubstringForMultiply
  rw [if_neg h]

lemma substringTermForMultiply_eq_true_iff (left right : Operand)
    (startPosition len k : Nat) (hlen : 1 ≤ len) (hk : k ≤ len) :
    substringTermForMultiply left right startPosition len k = true ↔
      ((k = 0 ∧ left.containsEpsilon = true ∧ right.containsSubstring startPosition len = true) ∨
       (k = len ∧ right.containsEpsilon = true ∧ left.containsSubstring startPosition len = true) ∨
       (0 < k ∧ k < len ∧ left.containsSubstring startPosition k = true ∧
         right.containsSubstring (startPosition + k) (len - k) = true)) := by
  unfold substringTermForMultiply
  by_cases hk0 : k = 0
  · subst hk0
    rw [if_pos rfl, Bool.and_eq_true]
    constructor
    · rintro ⟨ha, hb⟩
      exact Or.inl ⟨rfl, ha, hb⟩
    · rintro (⟨_, ha, hb⟩ | ⟨hke, _, _⟩ | ⟨hgt, _, _, _⟩)
      · exact ⟨ha, hb⟩
      · omega
      · omega
  · rw [if_neg hk0]
    by_cases hke : k = len
    · subst hke
      rw [if_pos rfl, Bool.and_eq_true]
      constructor
      · rintro ⟨ha, hb⟩
        exact Or.inr (Or.inl ⟨rfl, ha, hb⟩)
      · rintro (⟨h0, _, _⟩ | ⟨_, ha, hb⟩ | ⟨_, hlt, _, _⟩)
        · omega
        · exact ⟨ha, hb⟩
        · omega
    · rw [if_neg hke]
      simp only [Bool.and_eq_true]
      constructor
      · rintro ⟨ha, hb⟩
        exact Or.inr (Or.inr ⟨by omega, by omega, ha, hb⟩)
      · rintro (⟨h0, _, _⟩ | ⟨he, _, _⟩ | ⟨_, _, ha, hb⟩)
        · omega
        · omega
        · exact ⟨ha, hb⟩

/-! ### Claims C2, C3, C4: the concatenation combination laws -/

/-- C2: for two Operands built for the same reference string `W` of length `L`,
the concatenation's `matchesWholeW` is true iff one side already matches on its
own, or some split position `p` (`1 ≤ p < L`) has `left.suffixIsPrefixOfW[p]`
and `right.prefixIsSuffixOfW[L-p]`. -/
theorem mul_containsWordAsSubstring_iff (left right : Operand) (L : Nat)
    (hL : left.wordLength = L) (hR : right.wordLength = L) :
    (left.mul right).containsWordAsSubstring = true ↔
      left.containsWordAsSubstring = true ∨ right.containsWordAsSubstring = true ∨
      ∃ p, 1 ≤ p ∧ p < L ∧ left.containsSuffixEqualsToPrefix p = true ∧
        right.containsPrefixEqualsToSuffix (L - p) = true := by
  show containsWordAsSubstringForMultiply left.wordLength left right = true ↔ _
  rw [hL]
  exact containsWordAsSubstringForMultiply_eq_true_iff L left right

/-- Witness for C2 at concrete leaves over the reference string `ab`. -/
theorem mul_containsWordAsSubstring_iff_witness :
    (Operand.leaf 'a' ['a', 'b']).wordLength = 2 ∧
    (Operand.leaf 'b' ['a', 'b']).wordLength = 2 ∧
    (((Operand.leaf 'a' ['a', 'b']).mul (Operand.leaf 'b' ['a', 'b'])).containsWordAsSubstring
        = true ↔
      (Operand.leaf 'a' ['a', 'b']).containsWordAsSubstring = true ∨
      (Operand.leaf 'b' ['a', 'b']).containsWordAsSubstring = true ∨
      ∃ p, 1 ≤ p ∧ p < 2 ∧ (Operand.leaf 'a' ['a', 'b']).containsSuffixEqualsToPrefix p = true ∧
        (Operand.leaf 'b' ['a', 'b']).containsPrefixEqualsToSuffix (2 - p) = true) :=
  ⟨rfl, rfl, mul_containsWordAsSubstring_iff _ _ 2 rfl rfl⟩

/-- C3: the concatenation's substring table entry for a window is true iff a
split point `k` (`0 ≤ k ≤ len`) exists, the boundary cases being resolved via
`hasEpsilon` of the respective side; and the concatenation's `hasEpsilon` is
the conjunction of the two sides' flags. -/
theorem mul_containsSubstring_iff (left right : Operand) (L : Nat)
    (hL : left.wordLength = L) (hR : right.wordLength = L) :
    (∀ startPosition len, startPosition < L → 1 ≤ len → len ≤ L - startPosition →
      ((left.mul right).containsSubstring startPosition len = true ↔
        ∃ k, k ≤ len ∧
          ((k = 0 ∧ left.containsEpsilon = true ∧
              right.containsSubstring startPosition len = true) ∨
           (k = len ∧ right.containsEpsilon = true ∧
              left.containsSubstring startPosition len = true) ∨
           (0 < k ∧ k < len ∧ left.containsSubstring startPosition k = true ∧
              right.containsSubstring (startPosition + k) (len - k) = true)))) ∧
    (left.mul right).containsEpsilon = (left.containsEpsilon && right.containsEpsilon) := by
  constructor
  · intro startPosition len h1 h2 h3
    show containsSubstringForMultiply left.wordLength left right startPosition len = true ↔ _
    rw [hL, containsSubstringForMultiply_eq_true_iff L left right startPosition len h1 h2 h3]
    constructor
    · rintro ⟨k, hk, ht⟩
      exact ⟨k, hk, (substringTermForMultiply_eq_true_iff left right startPosition len k h2 hk).mp ht⟩
    · rintro ⟨k, hk, ht⟩
      exact ⟨k, hk, (substringTermForMultiply_eq_true_iff left right startPosition len k h2 hk).mpr ht⟩
  · rfl

/-- Witness for C3 at concrete leaves over the reference string `ab`,
instantiated at the window `start = 0`, `len = 2`. -/
theorem mul_containsSubstring_iff_witness :
    (Operand.leaf 'a' ['a', 'b']).wordLength = 2 ∧
    (Operand.leaf 'b' ['a', 'b']).wordLength = 2 ∧
    ((∀ startPosition len, startPosition < 2 → 1 ≤ len → len ≤ 2 - startPosition →
      (((Operand.leaf 'a' ['a', 'b']).mul (Operand.leaf 'b' ['a', 'b'])).containsSubstring
          startPosition len = true ↔
        ∃ k, k ≤ len ∧
          ((k = 0 ∧ (Operand.leaf 'a' ['a', 'b']).containsEpsilon = true ∧
              (Operand.leaf 'b' ['a', 'b']).containsSubstring startPosition len = true) ∨
           (k = len ∧ (Operand.leaf 'b' ['a', 'b']).containsEpsilon = true ∧
              (Operand.leaf 'a' ['a', 'b']).containsSubstring startPosition len = true) ∨
           (0 < k ∧ k < len ∧
              (Operand.leaf 'a' ['a', 'b']).containsSubstring startPosition k = true ∧
              (Operand.leaf 'b' ['a', 'b']).containsSubstring (startPosition + k) (len - k)
                = true)))) ∧
    ((Operand.leaf 'a' ['a', 'b']).mul (Operand.leaf 'b' ['a', 'b'])).containsEpsilon =
      ((Operand.leaf 'a' ['a', 'b']).containsEpsilon &&
        (Operand.leaf 'b' ['a', 'b']).containsEpsilon)) :=
  ⟨rfl, rfl, mul_containsSubstring_iff _ _ 2 rfl rfl⟩

/-- C4: the concatenation's boundary vectors. `suffixIsPrefixOfW[p]` is true iff
the suffix comes entirely from the right side, or from the left side with an
empty right string, or splits at some `q` (`1 ≤ q < p`); symmetrically for
`prefixIsSuffixOfW[s]`. -/
theorem mul_boundary_vectors_iff (left right : Operand) (L : Nat)
    (hL : left.wordLength = L) (hR : right.wordLength = L) :
    (∀ p, 1 ≤ p → p < L →
      ((left.mul right).containsSuffixEqualsToPrefix p = true ↔
        right.containsSuffixEqualsToPrefix p = true ∨
        (left.containsSuffixEqualsToPrefix p = true ∧ right.containsEpsilon = true) ∨
        ∃ q, 1 ≤ q ∧ q < p ∧ left.containsSuffixEqualsToPrefix q = true ∧
          right.containsSubstring q (p - q) = true)) ∧
    (∀ s, 1 ≤ s → s < L →
      ((left.mul right).containsPrefixEqualsToSuffix s = true ↔
        left.containsPrefixEqualsToSuffix s = true ∨
        (left.containsEpsilon = true ∧ right.containsPrefixEqualsToSuffix s = true) ∨
        ∃ r, 1 ≤ r ∧ r < s ∧ left.containsSubstring (L - s) (s - r) = true ∧
          right.containsPrefixEqualsToSuffix r = true)) := by
  constructor
  · intro p hp1 hp2
    show suffixEqualsToPrefixForMultiply left.wordLength left right p = true ↔ _
    rw [hL]
    exact suffixEqualsToPrefixForMultiply_eq_true_iff L left right p hp1 hp2
  · intro s hs1 hs2
    show prefixEqualsToSuffixForMultiply left.wordLength left right s = true ↔ _
    rw [hL]
    exact prefixEqualsToSuffixForMultiply_eq_true_iff L left right s hs1 hs2

/-- Witness for C4 at concrete leaves over the reference string `ab`. -/
theorem mul_boundary_vectors_iff_witness :
    (Operand.leaf 'a' ['a', 'b']).wordLength = 2 ∧
    (Operand.leaf 'b' ['a', 'b']).wordLength = 2 ∧
    ((∀ p, 1 ≤ p → p < 2 →
      (((Operand.leaf 'a' ['a', 'b']).mul (Operand.leaf 'b' ['a', 'b'])).containsSuffixEqualsToPrefix
          p = true ↔
        (Operand.leaf 'b' ['a', 'b']).containsSuffixEqualsToPrefix p = true ∨
        ((Operand.leaf 'a' ['a', 'b']).containsSuffixEqualsToPrefix p = true ∧
          (Operand.leaf 'b' ['a', 'b']).containsEpsilon = true) ∨
        ∃ q, 1 ≤ q ∧ q < p ∧ (Operand.leaf 'a' ['a', 'b']).containsSuffixEqualsToPrefix q = true ∧
          (Operand.leaf 'b' ['a', 'b']).containsSubstring q (p - q) = true)) ∧
    (∀ s, 1 ≤ s → s < 2 →
      (((Operand.leaf 'a' ['a', 'b']).mul (Operand.leaf 'b' ['a', 'b'])).containsPrefixEqualsToSuffix
          s = true ↔
        (Operand.leaf 'a' ['a', 'b']).containsPrefixEqualsToSuffix s = true ∨
        ((Operand.leaf 'a' ['a', 'b']).containsEpsilon = true ∧
          (Operand.leaf 'b' ['a', 'b']).containsPrefixEqualsToSuffix s = true) ∨
        ∃ r, 1 ≤ r ∧ r < s ∧ (Operand.leaf 'a' ['a', 'b']).containsSubstring (2 - s) (s - r) = true ∧
          (Operand.leaf 'b' ['a', 'b']).containsPrefixEqualsToSuffix r = true))) :=
  ⟨rfl, rfl, mul_boundary_vectors_iff _ _ 2 rfl rfl⟩

/-! ### The epsilon leaf and claim C9 -/

lemma leaf_wordLength (c : Char) (W : List Char) : (Operand.leaf c W).wordLength = W.length := by
  unfold Operand.leaf
  split <;> rfl

lemma leafEps_containsSubstring (W : List Char) (i len : Nat) :
    (Operand.leaf EPSILON W).containsSubstring i len = false := by
  unfold Operand.leaf
  rw [if_pos rfl]

lemma leafEps_containsEpsilon (W : List Char) :
    (Operand.leaf EPSILON W).containsEpsilon = true := by
  unfold Operand.leaf
  rw [if_pos rfl]

lemma leafEps_containsWordAsSubstring (W : List Char) :
    (Operand.leaf EPSILON W).containsWordAsSubstring = false := by
  unfold Operand.leaf
  rw [if_pos rfl]

lemma leafEps_containsSuffixEqualsToPrefix (W : List Char) (p : Nat) :
    (Operand.leaf EPSILON W).containsSuffixEqualsToPrefix p = false := by
  unfold Operand.leaf
  rw [if_pos rfl]

lemma leafEps_containsPrefixEqualsToSuffix (W : List Char) (s : Nat) :
    (Operand.leaf EPSILON W).containsPrefixEqualsToSuffix s = false := by
  unfold Operand.leaf
  rw [if_pos rfl]

/-- C9: the epsilon leaf Operand is a two-sided identity for concatenation: on
the declared index domains (`0 ≤ i < L`, `1 ≤ len ≤ L-i` for the substring
table, `1 ≤ p,s < L` for the boundary vectors) `A·epsilon` and `epsilon·A`
reproduce every field of `A` exactly. -/
theorem epsilon_mul_identity (A : Operand) (W : List Char) (hA : A.wordLength = W.length) :
    (∀ i len, i < W.length → 1 ≤ len → len ≤ W.length - i →
      ((A.mul (Operand.leaf EPSILON W)).containsSubstring i len = A.containsSubstring i len ∧
       ((Operand.leaf EPSILON W).mul A).containsSubstring i len = A.containsSubstring i len)) ∧
    ((A.mul (Operand.leaf EPSILON W)).containsEpsilon = A.containsEpsilon ∧
     ((Operand.leaf EPSILON W).mul A).containsEpsilon = A.containsEpsilon) ∧
    ((A.mul (Operand.leaf EPSILON W)).containsWordAsSubstring = A.containsWordAsSubstring ∧
     ((Operand.leaf EPSILON W).mul A).containsWordAsSubstring = A.containsWordAsSubstring) ∧
    (∀ p, 1 ≤ p → p < W.length →
      ((A.mul (Operand.leaf EPSILON W)).containsSuffixEqualsToPrefix p
          = A.containsSuffixEqualsToPrefix p ∧
       ((Operand.leaf EPSILON W).mul A).containsSuffixEqualsToPrefix p
          = A.containsSuffixEqualsToPrefix p)) ∧
    (∀ s, 1 ≤ s → s < W.length →
      ((A.mul (Operand.leaf EPSILON W)).containsPrefixEqualsToSuffix s
          = A.containsPrefixEqualsToSuffix s ∧
       ((Operand.leaf EPSILON W).mul A).containsPrefixEqualsToSuffix s
          = A.containsPrefixEqualsToSuffix s)) := by
  have hEw : (Operand.leaf EPSILON W).wordLength = W.length := leaf_wordLength EPSILON W
  refine ⟨?_, ⟨?_, ?_⟩, ⟨?_, ?_⟩, ?_, ?_⟩
  · intro i len hi h1 h2
    constructor
    · apply bool_eq_of_iff
      rw [show (A.mul (Operand.leaf EPSILON W)).containsSubstring
            = containsSubstringForMultiply A.wordLength A (Operand.leaf EPSILON W) from rfl, hA,
        containsSubstringForMultiply_eq_true_iff W.length A _ i len hi h1 h2]
      constructor
      · rintro ⟨k, hk, ht⟩
        rw [substringTermForMultiply_eq_true_iff A _ i len k h1 hk] at ht
        rcases ht with ⟨_, _, hb⟩ | ⟨_, _, hb⟩ | ⟨_, _, _, hb⟩
        · rw [leafEps_containsSubstring] at hb
          exact Bool.noConfusion hb
        · exact hb
        · rw [leafEps_containsSubstring] at hb
          exact Bool.noConfusion hb
      · intro h
        refine ⟨len, le_refl len, ?_⟩
        rw [substringTermForMultiply_eq_true_iff A _ i len len h1 (le_refl len)]
        exact Or.inr (Or.inl ⟨rfl, leafEps_containsEpsilon W, h⟩)
    · apply bool_eq_of_iff
      rw [show ((Operand.leaf EPSILON W).mul A).containsSubstring
            = containsSubstringForMultiply (Operand.leaf EPSILON W).wordLength
                (Operand.leaf EPSILON W) A from rfl, hEw,
        containsSubstringForMultiply_eq_true_iff W.length _ A i len hi h1 h2]
      constructor
      · rintro ⟨k, hk, ht⟩
        rw [substringTermForMultiply_eq_true_iff _ A i len k h1 hk] at ht
        rcases ht with ⟨_, _, hb⟩ | ⟨_, _, hb⟩ | ⟨_, _, hb, _⟩
        · exact hb
        · rw [leafEps_containsSubstring] at hb
          exact Bool.noConfusion hb
        · rw [leafEps_containsSubstring] at hb
          exact Bool.noConfusion hb
      · intro h
        refine ⟨0, Nat.zero_le len, ?_⟩
        rw [substringTermForMultiply_eq_true_iff _ A i len 0 h1 (Nat.zero_le len)]
        exact Or.inl ⟨rfl, leafEps_containsEpsilon W, h⟩
  · show (A.containsEpsilon && (Operand.leaf EPSILON W).containsEpsilon) = A.containsEpsilon
    rw [leafEps_containsEpsilon, Bool.and_true]
  · show ((Operand.leaf EPSILON W).containsEpsilon && A.containsEpsilon) = A.containsEpsilon
    rw [leafEps_containsEpsilon, Bool.true_and]
  · apply bool_eq_of_iff
    rw [show (A.mul (Operand.leaf EPSILON W)).containsWordAsSubstring
          = containsWordAsSubstringForMultiply A.wordLength A (Operand.leaf EPSILON W) from rfl,
      hA, containsWordAsSubstringForMultiply_eq_true_iff W.length A _]
    simp [leafEps_containsWordAsSubstring, leafEps_containsPrefixEqualsToSuffix]
  · apply bool_eq_of_iff
    rw [show ((Operand.leaf EPSILON W).mul A).containsWordAsSubstring
          = containsWordAsSubstringForMultiply (Operand.leaf EPSILON W).wordLength
              (Operand.leaf EPSILON W) A from rfl, hEw,
      containsWordAsSubstringForMultiply_eq_true_iff W.length _ A]
    simp [leafEps_containsWordAsSubstring, leafEps_containsSuffixEqualsToPrefix]
  · intro p hp1 hp2
    constructor
    · apply bool_eq_of_iff
      rw [show (A.mul (Operand.leaf EPSILON W)).containsSuffixEqualsToPrefix
            = suffixEqualsToPrefixForMultiply A.wordLength A (Operand.leaf EPSILON W) from rfl,
        hA, suffixEqualsToPrefixForMultiply_eq_true_iff W.length A _ p hp1 hp2]
      simp [leafEps_containsSuffixEqualsToPrefix, leafEps_containsSubstring,
        leafEps_containsEpsilon]
    · apply bool_eq_of_iff
      rw [show ((Operand.leaf EPSILON W).mul A).containsSuffixEqualsToPrefix
            = suffixEqualsToPrefixForMultiply (Operand.leaf EPSILON W).wordLength
                (Operand.leaf EPSILON W) A from rfl, hEw,
        suffixEqualsToPrefixForMultiply_eq_true_iff W.length _ A p hp1 hp2]
      simp [leafEps_containsSuffixEqualsToPrefix]
  · intro s hs1 hs2
    constructor
    · apply bool_eq_of_iff
      rw [show (A.mul (Operand.leaf EPSILON W)).containsPrefixEqualsToSuffix
            = prefixEqualsToSuffixForMultiply A.wordLength A (Operand.leaf EPSILON W) from rfl,
        hA, prefixEqualsToSuffixForMultiply_eq_true_iff W.length A _ s hs1 hs2]
      simp [leafEps_containsPrefixEqualsToSuffix]
    · apply bool_eq_of_iff
      rw [show ((Operand.leaf EPSILON W).mul A).containsPrefixEqualsToSuffix
            = prefixEqualsToSuffixForMultiply (Operand.leaf EPSILON W).wordLength
                (Operand.leaf EPSILON W) A from rfl, hEw,
        prefixEqualsToSuffixForMultiply_eq_true_iff W.length _ A s hs1 hs2]
      simp [leafEps_containsPrefixEqualsToSuffix, leafEps_containsSubstring,
        leafEps_containsEpsilon]

/-- Witness for C9: the identity instantiated at the leaf `a` over `W = ab`. -/
theorem epsilon_mul_identity_witness :
    (Operand.leaf 'a' ['a', 'b']).wordLength = (['a', 'b'] : List Char).length ∧
    ((∀ i len, i < (['a', 'b'] : List Char).length → 1 ≤ len →
        len ≤ (['a', 'b'] : List Char).length - i →
      (((Operand.leaf 'a' ['a', 'b']).mul (Operand.leaf EPSILON ['a', 'b'])).containsSubstring i len
          = (Operand.leaf 'a' ['a', 'b']).containsSubstring i len ∧
       ((Operand.leaf EPSILON ['a', 'b']).mul (Operand.leaf 'a' ['a', 'b'])).containsSubstring i len
          = (Operand.leaf 'a' ['a', 'b']).containsSubstring i len)) ∧
    (((Operand.leaf 'a' ['a', 'b']).mul (Operand.leaf EPSILON ['a', 'b'])).containsEpsilon
        = (Operand.leaf 'a' ['a', 'b']).containsEpsilon ∧
     ((Operand.leaf EPSILON ['a', 'b']).mul (Operand.leaf 'a' ['a', 'b'])).containsEpsilon
        = (Operand.leaf 'a' ['a', 'b']).containsEpsilon) ∧
    (((Operand.leaf 'a' ['a', 'b']).mul (Operand.leaf EPSILON ['a', 'b'])).containsWordAsSubstring
        = (Operand.leaf 'a' ['a', 'b']).containsWordAsSubstring ∧
     ((Operand.leaf EPSILON ['a', 'b']).mul (Operand.leaf 'a' ['a', 'b'])).containsWordAsSubstring
        = (Operand.leaf 'a' ['a', 'b']).containsWordAsSubstring) ∧
    (∀ p, 1 ≤ p → p < (['a', 'b'] : List Char).length →
      (((Operand.leaf 'a' ['a', 'b']).mul
            (Operand.leaf EPSILON ['a', 'b'])).containsSuffixEqualsToPrefix p
          = (Operand.leaf 'a' ['a', 'b']).containsSuffixEqualsToPrefix p ∧
       ((Operand.leaf EPSILON ['a', 'b']).mul
            (Operand.leaf 'a' ['a', 'b'])).containsSuffixEqualsToPrefix p
          = (Operand.leaf 'a' ['a', 'b']).containsSuffixEqualsToPrefix p)) ∧
    (∀ s, 1 ≤ s → s < (['a', 'b'] : List Char).length →
      (((Operand.leaf 'a' ['a', 'b']).mul
            (Operand.leaf EPSILON ['a', 'b'])).containsPrefixEqualsToSuffix s
          = (Operand.leaf 'a' ['a', 'b']).containsPrefixEqualsToSuffix s ∧
       ((Operand.leaf EPSILON ['a', 'b']).mul
            (Operand.leaf 'a' ['a', 'b'])).containsPrefixEqualsToSuffix s
          = (Operand.leaf 'a' ['a', 'b']).containsPrefixEqualsToSuffix s))) :=
  ⟨rfl, epsilon_mul_identity (Operand.leaf 'a' ['a', 'b']) ['a', 'b'] rfl⟩

/-! ### Claims C5 and C10: the Kleene-star iteration -/

/-- The `n`-th power of an operand relative to `word`: the epsilon leaf for
`n = 0`, and `e^n · e` for `n + 1` — the sequence of running powers the
Kleene-star loop builds. -/
def opPow (e : Operand) (word : List Char) : Nat → Operand
  | 0 => Operand.leaf EPSILON word
  | n + 1 => (opPow e word n).mul e

/-- The left-associated union of powers `e^0 + e^1 + ... + e^n`. -/
def powerUnion (e : Operand) (word : List Char) : Nat → Operand
  | 0 => opPow e word 0
  | n + 1 => (powerUnion e word n).add (opPow e word (n + 1))

lemma kleeneLoop_eq_powerUnion (e : Operand) (word : List Char) :
    ∀ n k, kleeneLoop e n (opPow e word k) (powerUnion e word k)
      = powerUnion e word (k + n) := by
  intro n
  induction n with
  | zero => intro k; rfl
  | succ n ih =>
    intro k
    show kleeneLoop e n ((opPow e word k).mul e)
        ((powerUnion e word k).add ((opPow e word k).mul e)) = _
    have h1 : kleeneLoop e n (opPow e word (k + 1)) (powerUnion e word (k + 1))
        = powerUnion e word ((k + 1) + n) := ih (k + 1)
    rw [show ((k + 1) + n) = k + (n + 1) by omega] at h1
    exact h1

lemma kleeneStarN_eq_powerUnion (e : Operand) (word : List Char) (n : Nat) :
    kleeneStarN e word n = powerUnion e word n := by
  have h := kleeneLoop_eq_powerUnion e word n 0
  simpa using h

/-- C5: processing a Kleene-star token pops one operand `e` and pushes the
result of the `2·L + 2`-fold iteration `power ← power · e; accumulated ←
accumulated + power` started from the epsilon leaf, which equals the
left-associated union of the powers `e^0 + e^1 + ... + e^(2L+2)`. -/
theorem kleeneStar_eq_powerUnion (word : List Char) (e : Operand) (rest : List Operand) :
    calculateKleeneStar word (e :: rest)
      = Except.ok (powerUnion e word (2 * word.length + 2) :: rest) := by
  show Except.ok (kleeneStarN e word (2 * word.length + 2) :: rest) = _
  rw [kleeneStarN_eq_powerUnion]

lemma powerUnion_containsEpsilon (e : Operand) (word : List Char) (n : Nat) :
    (powerUnion e word n).containsEpsilon = true := by
  induction n with
  | zero => exact leafEps_containsEpsilon word
  | succ n ih =>
    show ((powerUnion e word n).containsEpsilon || _) = true
    rw [ih, Bool.true_or]

/-- C10: the Operand produced by the Kleene-star case always has
`hasEpsilon = true`, regardless of the popped operand: the accumulation starts
from the epsilon leaf and union only ors the flags. -/
theorem kleeneStar_containsEpsilon (e : Operand) (word : List Char) :
    (kleeneStarN e word (2 * word.length + 2)).containsEpsilon = true := by
  rw [kleeneStarN_eq_powerUnion]
  exact powerUnion_containsEpsilon e word (2 * word.length + 2)

/-! ### Claims C7 and C8: behaviour of the outer search on malformed input -/

/-- A character the word alphabet accepts (`a`, `b` or `c`); the epsilon symbol
is deliberately not a word character. -/
def isWordChar (c : Char) : Bool := c = 'a' || c = 'b' || c = 'c'

lemma bad_char_cond (c : Char) (hc : isWordChar c = false) :
    (c = EPSILON || !isSymbolOfAlphabet c) = true := by
  unfold isWordChar at hc
  simp only [Bool.or_eq_false_iff, decide_eq_false_iff_not] at hc
  obtain ⟨⟨h1, h2⟩, h3⟩ := hc
  by_cases h4 : c = EPSILON
  · simp [h4]
  · simp [isSymbolOfAlphabet, h1, h2, h3, h4]

lemma checkWord_single_bad (c : Char) (hc : isWordChar c = false) :
    checkWord [c] = Except.error ("Unknown symbol in word: " ++ String.mk [c]) := by
  have hcond := bad_char_cond c hc
  unfold checkWord
  rw [if_neg (by simp)]
  show ((if c = EPSILON || !isSymbolOfAlphabet c then
      Except.error ("Unknown symbol in word: " ++ String.mk [c]) else Except.ok ()) >>=
        fun s => List.foldlM _ s []) = _
  rw [if_pos hcond]
  rfl

lemma calculateValueOfExpression_error_of_checkWord (expr word2 : List Char) (msg : String)
    (hcw : checkWord word2 = Except.error msg) :
    calculateValueOfExpression expr word2 = Except.error msg := by
  unfold calculateValueOfExpression
  rw [hcw]

lemma foldlM_error_of_mem {α β : Type} (f : β → α → Except String β) (l : List α)
    (x : α) (hx : x ∈ l) (hf : ∀ b, ∃ msg, f b x = Except.error msg) :
    ∀ b, ∃ msg, List.foldlM f b l = Except.error msg := by
  induction l with
  | nil => cases hx
  | cons y t ih =>
    intro b
    rcases List.mem_cons.mp hx with rfl | hxt
    · obtain ⟨msg, hm⟩ := hf b
      refine ⟨msg, ?_⟩
      show (f b x >>= fun s => List.foldlM f s t) = _
      rw [hm]
      rfl
    · cases hfy : f b y with
      | error msg =>
          refine ⟨msg, ?_⟩
          show (f b y >>= fun s => List.foldlM f s t) = _
          rw [hfy]
          rfl
      | ok b2 =>
          obtain ⟨msg, hm⟩ := ih hxt b2
          refine ⟨msg, ?_⟩
          show (f b y >>= fun s => List.foldlM f s t) = _
          rw [hfy]
          exact hm

/-- Counterexample to C7: the empty word is not rejected — the search loop has
no trials to run and `solve` returns `0` successfully instead of aborting. -/
theorem empty_word_not_rejected :
    solve ['a'] [] = Except.ok 0 ∧
    (Except.ok 0 : Except String Nat) ≠ Except.error "Word is empty" :=
  ⟨rfl, fun h => Except.noConfusion h⟩

/-- C7 amended: a word containing a character outside `{a, b, c}` (including
the epsilon symbol) makes the whole computation abort with a malformed-input
error — raised by `checkWord` during the first trial whose substring contains
the character, not before the trial loop starts — while the empty word is not
rejected at all: `solve` returns `0` without evaluating any trial. -/
theorem malformed_word_aborts (expr word : List Char)
    (h : ∃ c ∈ word, isWordChar c = false) :
    (∃ msg, solve expr word = Except.error msg) ∧ solve expr [] = Except.ok 0 := by
  refine ⟨?_, rfl⟩
  obtain ⟨c, hcmem, hcbad⟩ := h
  obtain ⟨idx, hidx, hceq⟩ := List.mem_iff_getElem.mp hcmem
  have hsub : (word.drop idx).take 1 = [c] := by
    rw [List.drop_eq_getElem_cons hidx, hceq]
    rfl
  have htrial : calculateValueOfExpression expr ((word.drop idx).take 1)
      = Except.error ("Unknown symbol in word: " ++ String.mk [c]) := by
    rw [hsub]
    exact calculateValueOfExpression_error_of_checkWord expr [c] _
      (checkWord_single_bad c hcbad)
  have hinner : ∀ b : Nat, ∃ msg,
      List.foldlM
        (fun ans len =>
          match calculateValueOfExpression expr ((word.drop idx).take len) with
          | Except.error e => Except.error e
          | Except.ok result =>
              Except.ok (if result.containsWordAsSubstring then max ans len else ans))
        b (List.range' 1 (word.length - idx)) = Except.error msg := by
    apply foldlM_error_of_mem _ _ 1
    · rw [List.mem_range'_1]
      omega
    · intro b
      refine ⟨"Unknown symbol in word: " ++ String.mk [c], ?_⟩
      rw [htrial]
  have houter := foldlM_error_of_mem
    (fun answer startPosition =>
      List.foldlM
        (fun ans len =>
          match calculateValueOfExpression expr ((word.drop startPosition).take len) with
          | Except.error e => Except.error e
          | Except.ok result =>
              Except.ok (if result.containsWordAsSubstring then max ans len else ans))
        answer (List.range' 1 (word.length - startPosition)))
    (List.range word.length) idx (by rw [List.mem_range]; omega) hinner 0
  exact houter

/-- Witness for C7 (amended): the word `x` contains the invalid character `x`. -/
theorem malformed_word_aborts_witness :
    (∃ c ∈ (['x'] : List Char), isWordChar c = false) ∧
    ((∃ msg, solve ['a'] ['x'] = Except.error msg) ∧ solve ['a'] [] = Except.ok 0) :=
  ⟨by decide, malformed_word_aborts ['a'] ['x'] (by decide)⟩

/-- Counterexample to C8: on the word `xaby` the very first trial substring is
`x`, whose character is outside the alphabet, so the search aborts with a
malformed-input error instead of returning length 2. -/
theorem scenario1_word_xaby_errors :
    solve ['a', 'b', '.'] ['x', 'a', 'b', 'y']
        = Except.error "Unknown symbol in word: x" ∧
    (Except.error "Unknown symbol in word: x" : Except String Nat) ≠ Except.ok 2 :=
  ⟨rfl, fun h => Except.noConfusion h⟩

/-- C8 amended: the scenario-1 word `xaby` contains characters outside the
alphabet, so the search aborts with a malformed-input error on it; on an
all-alphabet word containing `ab`, such as `cabc`, the expression `ab.` gives
longest matching substring length 2. -/
theorem scenario1_alphabet_word :
    solve ['a', 'b', '.'] ['c', 'a', 'b', 'c'] = Except.ok 2 := rfl

/-! ### Claim C1: the outer search computes the longest matching substring -/

/-- Abstract stack-effect of one token: alphabet symbols push one operand, the
binary operators need two and leave one, the star needs one and leaves one;
anything else (or a failed requirement) is a malformed expression. -/
def tokenCount (c : Char) : Option Nat → Option Nat
  | none => none
  | some n =>
    if isOperator c then
      if c = '*' then (if 1 ≤ n then some n else none)
      else (if 2 ≤ n then some (n - 1) else none)
    else if isSymbolOfAlphabet c then some (n + 1)
    else none

/-- A well-formed postfix expression: starting from an empty stack every token
finds the operands it needs and exactly one operand remains at the end. -/
def wellFormed (expr : List Char) : Prop :=
  expr.foldl (fun s c => tokenCount c s) (some 0) = some 1

lemma tokenCount_foldl_none (tokens : List Char) :
    tokens.foldl (fun s c => tokenCount c s) none = none := by
  induction tokens with
  | nil => rfl
  | cons c t ih =>
    show t.foldl (fun s c => tokenCount c s) (tokenCount c none) = none
    exact ih

lemma isOperator_elim (c : Char) (h : isOperator c = true) : c = '+' ∨ c = '.' ∨ c = '*' := by
  unfold isOperator at h
  simp only [Bool.or_eq_true, decide_eq_true_eq] at h
  tauto

lemma step_ok (word : List Char) (stack : List Operand) (c : Char) (k : Nat)
    (h : tokenCount c (some stack.length) = some k) :
    ∃ stack2, step word stack c = Except.ok stack2 ∧ stack2.length = k := by
  by_cases hop : isOperator c = true
  · rcases isOperator_elim c hop with rfl | rfl | rfl
    · rw [show tokenCount '+' (some stack.length)
          = (if 2 ≤ stack.length then some (stack.length - 1) else none) from rfl] at h
      by_cases h2 : 2 ≤ stack.length
      · rw [if_pos h2] at h
        injection h with hk
        match stack, h2 with
        | right :: left :: rest, _ =>
          refine ⟨left.add right :: rest, rfl, ?_⟩
          simp only [List.length_cons] at hk ⊢
          omega
      · rw [if_neg h2] at h
        cases h
    · rw [show tokenCount '.' (some stack.length)
          = (if 2 ≤ stack.length then some (stack.length - 1) else none) from rfl] at h
      by_cases h2 : 2 ≤ stack.length
      · rw [if_pos h2] at h
        injection h with hk
        match stack, h2 with
        | right :: left :: rest, _ =>
          refine ⟨left.mul right :: rest, rfl, ?_⟩
          simp only [List.length_cons] at hk ⊢
          omega
      · rw [if_neg h2] at h
        cases h
    · rw [show tokenCount '*' (some stack.length)
          = (if 1 ≤ stack.length then some stack.length else none) from rfl] at h
      by_cases h1 : 1 ≤ stack.length
      · rw [if_pos h1] at h
        injection h with hk
        match stack, h1 with
        | e :: rest, _ =>
          refine ⟨kleeneStarN e word (2 * word.length + 2) :: rest, rfl, ?_⟩
          simp only [List.length_cons] at hk ⊢
          omega
      · rw [if_neg h1] at h
        cases h
  · rw [show tokenCount c (some stack.length)
        = (if isOperator c then
            (if c = '*' then (if 1 ≤ stack.length then some stack.length else none)
             else (if 2 ≤ stack.length then some (stack.length - 1) else none))
          else if isSymbolOfAlphabet c then some (stack.length + 1) else none) from rfl,
      if_neg hop] at h
    by_cases hsym : isSymbolOfAlphabet c = true
    · rw [if_pos hsym] at h
      injection h with hk
      refine ⟨Operand.leaf c word :: stack, ?_, ?_⟩
      · unfold step
        rw [if_neg hop, if_pos hsym]
      · simp only [List.length_cons]
        omega
    · rw [if_neg hsym] at h
      cases h

lemma evalFold_ok (word : List Char) :
    ∀ (tokens : List Char) (stack : List Operand) (k : Nat),
      tokens.foldl (fun s c => tokenCount c s) (some stack.length) = some k →
      ∃ stack2, List.foldlM (step word) stack tokens = Except.ok stack2 ∧ stack2.length = k := by
  intro tokens
  induction tokens with
  | nil =>
    intro stack k h
    injection h with hk
    exact ⟨stack, rfl, hk⟩
  | cons c t ih =>
    intro stack k h
    have hfold : t.foldl (fun s c => tokenCount c s) (tokenCount c (some stack.length))
        = some k := h
    cases hc : tokenCount c (some stack.length) with
    | none =>
        rw [hc, tokenCount_foldl_none] at hfold
        cases hfold
    | some n1 =>
        rw [hc] at hfold
        obtain ⟨stack2, hs2, hlen⟩ := step_ok word stack c n1 hc
        obtain ⟨stack3, hs3, hlen3⟩ := ih stack2 k (by rw [hlen]; exact hfold)
        refine ⟨stack3, ?_, hlen3⟩
        show (step word stack c >>= fun s => List.foldlM (step word) s t) = _
        rw [hs2]
        exact hs3

lemma checkWord_foldlM_ok (w : List Char) (hchars : ∀ c ∈ w, isWordChar c = true) :
    List.foldlM
      (fun _ c =>
        if c = EPSILON || !isSymbolOfAlphabet c then
          Except.error ("Unknown symbol in word: " ++ String.mk [c])
        else Except.ok ())
      () w = Except.ok () := by
  induction w with
  | nil => rfl
  | cons c t ih =>
    have hc := hchars c (List.mem_cons_self c t)
    have hcond : (c = EPSILON || !isSymbolOfAlphabet c) = false := by
      unfold isWordChar at hc
      simp only [Bool.or_eq_true, decide_eq_true_eq] at hc
      rcases hc with (h | h) | h <;> subst h <;> rfl
    show ((if c = EPSILON || !isSymbolOfAlphabet c then _ else Except.ok ()) >>=
        fun s => List.foldlM _ s t) = _
    rw [if_neg (by simp [hcond])]
    exact ih (fun c2 hc2 => hchars c2 (List.mem_cons_of_mem c hc2))

lemma checkWord_ok (word : List Char) (hne : word ≠ [])
    (hchars : ∀ c ∈ word, isWordChar c = true) : checkWord word = Except.ok () := by
  unfold checkWord
  rw [if_neg (by simp [List.isEmpty_iff, hne])]
  exact checkWord_foldlM_ok word hchars

lemma calculateValueOfExpression_ok (expr word : List Char) (hwf : wellFormed expr)
    (hne : word ≠ []) (hchars : ∀ c ∈ word, isWordChar c = true) :
    ∃ op, calculateValueOfExpression expr word = Except.ok op := by
  have hcw := checkWord_ok word hne hchars
  obtain ⟨stack2, hs, hlen⟩ := evalFold_ok word expr [] 1 hwf
  match stack2, hlen with
  | [op], _ =>
    refine ⟨op, ?_⟩
    unfold calculateValueOfExpression
    rw [hcw, hs]

lemma substring_ne_nil (word : List Char) (start len : Nat)
    (h1 : start < word.length) (h2 : 1 ≤ len) : (word.drop start).take len ≠ [] := by
  have hl : ((word.drop start).take len).length = min len (word.length - start) := by
    simp [List.length_take, List.length_drop]
  intro h
  rw [h] at hl
  simp only [List.length_nil] at hl
  omega

lemma substring_chars (word : List Char) (start len : Nat)
    (hchars : ∀ c ∈ word, isWordChar c = true) :
    ∀ c ∈ (word.drop start).take len, isWordChar c = true := by
  intro c hc
  exact hchars c (List.mem_of_mem_drop (List.mem_of_mem_take hc))

lemma inner_foldlM_ok (expr word : List Char) (start : Nat) (hwf : wellFormed expr)
    (hstart : start < word.length) (hchars : ∀ c ∈ word, isWordChar c = true) :
    ∀ (lens : List Nat), (∀ len ∈ lens, 1 ≤ len) → ∀ (b : Nat),
      List.foldlM
        (fun ans len =>
          match calculateValueOfExpression expr ((word.drop start).take len) with
          | Except.error e => Except.error e
          | Except.ok result =>
              Except.ok (if result.containsWordAsSubstring then max ans len else ans))
        b lens
      = Except.ok (lens.foldl
          (fun ans len =>
            if evalMatches expr ((word.drop start).take len) then max ans len else ans) b) := by
  intro lens
  induction lens with
  | nil => intro _ b; rfl
  | cons len t ih =>
    intro hlens b
    have hlen1 : 1 ≤ len := hlens len (List.mem_cons_self len t)
    obtain ⟨op, hop⟩ := calculateValueOfExpression_ok expr ((word.drop start).take len) hwf
      (substring_ne_nil word start len hstart hlen1) (substring_chars word start len hchars)
    have hmatch : evalMatches expr ((word.drop start).take len) = op.containsWordAsSubstring := by
      unfold evalMatches
      rw [hop]
    show ((match calculateValueOfExpression expr ((word.drop start).take len) with
          | Except.error e => Except.error e
          | Except.ok result =>
              Except.ok (if result.containsWordAsSubstring then max b len else b)) >>=
        fun s => List.foldlM _ s t) = _
    rw [hop]
    show List.foldlM _ (if op.containsWordAsSubstring then max b len else b) t = _
    rw [ih (fun l hl => hlens l (List.mem_cons_of_mem len hl))
      (if op.containsWordAsSubstring then max b len else b)]
    have hconsfold : (len :: t).foldl
        (fun ans len =>
          if evalMatches expr ((word.drop start).take len) then max ans len else ans) b
      = t.foldl
        (fun ans len =>
          if evalMatches expr ((word.drop start).take len) then max ans len else ans)
        (if op.containsWordAsSubstring then max b len else b) := by
      show t.foldl _
          (if evalMatches expr ((word.drop start).take len) then max b len else b) = _
      rw [hmatch]
    rw [hconsfold]

lemma foldl_max_spec (f : Nat → Bool) (l : List Nat) :
    ∀ a, a ≤ l.foldl (fun acc x => if f x then max acc x else acc) a ∧
      (∀ x ∈ l, f x = true → x ≤ l.foldl (fun acc x => if f x then max acc x else acc) a) ∧
      (l.foldl (fun acc x => if f x then max acc x else acc) a = a ∨
        ∃ x ∈ l, f x = true ∧ l.foldl (fun acc x => if f x then max acc x else acc) a = x) := by
  induction l with
  | nil => intro a; exact ⟨le_refl a, by simp, Or.inl rfl⟩
  | cons x t ih =>
    intro a
    by_cases hx : f x = true
    · have hstep : (x :: t).foldl (fun acc x => if f x then max acc x else acc) a
          = t.foldl (fun acc x => if f x then max acc x else acc) (max a x) := by
        show t.foldl _ (if f x then max a x else a) = _
        rw [if_pos hx]
      obtain ⟨hle, hbound, hatt⟩ := ih (max a x)
      refine ⟨?_, ?_, ?_⟩
      · rw [hstep]
        exact le_trans (le_max_left a x) hle
      · intro y hy hfy
        rw [hstep]
        rcases List.mem_cons.mp hy with rfl | hyt
        · exact le_trans (le_max_right a y) hle
        · exact hbound y hyt hfy
      · rw [hstep]
        rcases hatt with heq | ⟨y, hy, hfy, heq⟩
        · rcases max_choice a x with hm | hm
          · exact Or.inl (by rw [heq, hm])
          · exact Or.inr ⟨x, List.mem_cons_self x t, hx, by rw [heq, hm]⟩
        · exact Or.inr ⟨y, List.mem_cons_of_mem x hy, hfy, heq⟩
    · have hstep : (x :: t).foldl (fun acc x => if f x then max acc x else acc) a
          = t.foldl (fun acc x => if f x then max acc x else acc) a := by
        show t.foldl _ (if f x then max a x else a) = _
        rw [if_neg hx]
      obtain ⟨hle, hbound, hatt⟩ := ih a
      refine ⟨?_, ?_, ?_⟩
      · rw [hstep]
        exact hle
      · intro y hy hfy
        rw [hstep]
        rcases List.mem_cons.mp hy with rfl | hyt
        · exact absurd hfy hx
        · exact hbound y hyt hfy
      · rw [hstep]
        rcases hatt with heq | ⟨y, hy, hfy, heq⟩
        · exact Or.inl heq
        · exact Or.inr ⟨y, List.mem_cons_of_mem x hy, hfy, heq⟩

/-- The pure value of one inner trial loop for a fixed start position. -/
def innerPure (expr word : List Char) (b start : Nat) : Nat :=
  (List.range' 1 (word.length - start)).foldl
    (fun ans len =>
      if evalMatches expr ((word.drop start).take len) then max ans len else ans) b

lemma outer_foldlM_ok (expr word : List Char) (hwf : wellFormed expr)
    (hchars : ∀ c ∈ word, isWordChar c = true) :
    ∀ (starts : List Nat), (∀ s ∈ starts, s < word.length) → ∀ (b : Nat),
      List.foldlM
        (fun answer startPosition =>
          List.foldlM
            (fun ans len =>
              match calculateValueOfExpression expr ((word.drop startPosition).take len) with
              | Except.error e => Except.error e
              | Except.ok result =>
                  Except.ok (if result.containsWordAsSubstring then max ans len else ans))
            answer (List.range' 1 (word.length - startPosition)))
        b starts
      = Except.ok (starts.foldl (innerPure expr word) b) := by
  intro starts
  induction starts with
  | nil => intro _ b; rfl
  | cons s t ih =>
    intro hstarts b
    have hs : s < word.length := hstarts s (List.mem_cons_self s t)
    have hinner := inner_foldlM_ok expr word s hwf hs hchars
      (List.range' 1 (word.length - s))
      (fun len hl => by rw [List.mem_range'_1] at hl; omega) b
    show (List.foldlM _ b (List.range' 1 (word.length - s)) >>=
        fun a => List.foldlM _ a t) = _
    rw [hinner]
    show List.foldlM _ (innerPure expr word b s) t = _
    exact ih (fun s2 hs2 => hstarts s2 (List.mem_cons_of_mem s hs2)) (innerPure expr word b s)

lemma outer_max_spec (expr word : List Char) :
    ∀ (starts : List Nat) (a : Nat),
      a ≤ starts.foldl (innerPure expr word) a ∧
      (∀ s ∈ starts, ∀ len, 1 ≤ len → len ≤ word.length - s →
        evalMatches expr ((word.drop s).take len) = true →
        len ≤ starts.foldl (innerPure expr word) a) ∧
      (starts.foldl (innerPure expr word) a = a ∨
        ∃ s ∈ starts, ∃ len, 1 ≤ len ∧ len ≤ word.length - s ∧
          evalMatches expr ((word.drop s).take len) = true ∧
          starts.foldl (innerPure expr word) a = len) := by
  intro starts
  induction starts with
  | nil => intro a; exact ⟨le_refl a, by simp, Or.inl rfl⟩
  | cons s t ih =>
    intro a
    have hstep : (s :: t).foldl (innerPure expr word) a
        = t.foldl (innerPure expr word) (innerPure expr word a s) := rfl
    obtain ⟨hin_le0, hin_bound0, hin_att0⟩ :=
      foldl_max_spec (fun len => evalMatches expr ((word.drop s).take len))
        (List.range' 1 (word.length - s)) a
    have hin_le : a ≤ innerPure expr word a s := hin_le0
    have hin_bound : ∀ x ∈ List.range' 1 (word.length - s),
        evalMatches expr ((word.drop s).take x) = true → x ≤ innerPure expr word a s :=
      hin_bound0
    have hin_att : innerPure expr word a s = a ∨
        ∃ x ∈ List.range' 1 (word.length - s),
          evalMatches expr ((word.drop s).take x) = true ∧ innerPure expr word a s = x :=
      hin_att0
    obtain ⟨hle, hbound, hatt⟩ := ih (innerPure expr word a s)
    refine ⟨?_, ?_, ?_⟩
    · rw [hstep]
      exact le_trans hin_le hle
    · intro s2 hs2 len hlen1 hlen2 hev
      rw [hstep]
      rcases List.mem_cons.mp hs2 with rfl | hs2t
      · refine le_trans ?_ hle
        exact hin_bound len (by rw [List.mem_range'_1]; omega) hev
      · exact hbound s2 hs2t len hlen1 hlen2 hev
    · rw [hstep]
      rcases hatt with heq | ⟨s2, hs2, len, h1, h2, h3, heq⟩
      · rcases hin_att with heq2 | ⟨len, hlmem, hlev, heq2⟩
        · exact Or.inl (by rw [heq, heq2])
        · rw [List.mem_range'_1] at hlmem
          exact Or.inr ⟨s, List.mem_cons_self s t, len, by omega, by omega, hlev,
            by rw [heq, heq2]⟩
      · exact Or.inr ⟨s2, List.mem_cons_of_mem s hs2, len, h1, h2, h3, heq⟩

/-- C1: for a well-formed postfix expression and a non-empty word over
`{a, b, c}`, `solve` succeeds and returns the maximum length over all windows
of the word whose substring makes the evaluated expression report
`matchesWholeW = true`, or `0` when no window matches. -/
theorem solve_longest_matching_substring (expr word : List Char) (hwf : wellFormed expr)
    (hne : word ≠ []) (hchars : ∀ c ∈ word, isWordChar c = true) :
    ∃ n, solve expr word = Except.ok n ∧
      (∀ start len, start < word.length → 1 ≤ len → len ≤ word.length - start →
        evalMatches expr ((word.drop start).take len) = true → len ≤ n) ∧
      (n = 0 ∨ ∃ start len, start < word.length ∧ 1 ≤ len ∧ len ≤ word.length - start ∧
        evalMatches expr ((word.drop start).take len) = true ∧ n = len) := by
  refine ⟨(List.range word.length).foldl (innerPure expr word) 0, ?_, ?_, ?_⟩
  · show List.foldlM _ 0 (List.range word.length) = _
    exact outer_foldlM_ok expr word hwf hchars (List.range word.length)
      (fun s hs => List.mem_range.mp hs) 0
  · intro start len h1 h2 h3 hev
    obtain ⟨_, hbound, _⟩ := outer_max_spec expr word (List.range word.length) 0
    exact hbound start (List.mem_range.mpr h1) len h2 h3 hev
  · obtain ⟨_, _, hatt⟩ := outer_max_spec expr word (List.range word.length) 0
    rcases hatt with heq | ⟨s, hs, len, ha, hb, hc, heq⟩
    · exact Or.inl heq
    · exact Or.inr ⟨s, len, List.mem_range.mp hs, ha, hb, hc, heq⟩

/-- Witness for C1: the expression `ab.` on the word `caba`. -/
theorem solve_longest_matching_substring_witness :
    wellFormed ['a', 'b', '.'] ∧ (['c', 'a', 'b', 'a'] : List Char) ≠ [] ∧
    (∀ c ∈ (['c', 'a', 'b', 'a'] : List Char), isWordChar c = true) ∧
    (∃ n, solve ['a', 'b', '.'] ['c', 'a', 'b', 'a'] = Except.ok n ∧
      (∀ start len, start < (['c', 'a', 'b', 'a'] : List Char).length → 1 ≤ len →
        len ≤ (['c', 'a', 'b', 'a'] : List Char).length - start →
        evalMatches ['a', 'b', '.'] (((['c', 'a', 'b', 'a'] : List Char).drop start).take len)
          = true → len ≤ n) ∧
      (n = 0 ∨ ∃ start len, start < (['c', 'a', 'b', 'a'] : List Char).length ∧ 1 ≤ len ∧
        len ≤ (['c', 'a', 'b', 'a'] : List Char).length - start ∧
        evalMatches ['a', 'b', '.'] (((['c', 'a', 'b', 'a'] : List Char).drop start).take len)
          = true ∧ n = len)) :=
  ⟨rfl, by decide, by decide,
    solve_longest_matching_substring ['a', 'b', '.'] ['c', 'a', 'b', 'a'] rfl
      (by decide) (by decide)⟩

/-! ### Claim C6: boolean-matrix infrastructure

The concatenation algebra acts on the boolean tables like multiplication of
upper-triangular boolean matrices over a finite state set.  Sums of matrix
powers stabilise once the exponent reaches the number of states, because any
longer walk through the state graph revisits a state and can be shortened. -/

def matMul (m : Nat) (A B : Nat → Nat → Bool) : Nat → Nat → Bool :=
  fun i j => (List.range m).any (fun k => A i k && B k j)

def matId (m : Nat) : Nat → Nat → Bool := fun i j => decide (i = j ∧ i < m)

def matAdd (A B : Nat → Nat → Bool) : Nat → Nat → Bool := fun i j => A i j || B i j

def matPow (m : Nat) (A : Nat → Nat → Bool) : Nat → (Nat → Nat → Bool)
  | 0 => matId m
  | n + 1 => matMul m (matPow m A n) A

def matSum (m : Nat) (A : Nat → Nat → Bool) : Nat → (Nat → Nat → Bool)
  | 0 => matId m
  | n + 1 => matAdd (matSum m A n) (matPow m A (n + 1))

lemma matMul_eq_true_iff (m : Nat) (A B : Nat → Nat → Bool) (i j : Nat) :
    matMul m A B i j = true ↔ ∃ k, k < m ∧ A i k = true ∧ B k j = true := by
  unfold matMul
  rw [List.any_eq_true]
  constructor
  · rintro ⟨k, hk, ht⟩
    rw [Bool.and_eq_true] at ht
    exact ⟨k, List.mem_range.mp hk, ht.1, ht.2⟩
  · rintro ⟨k, hk, h1, h2⟩
    exact ⟨k, List.mem_range.mpr hk, by rw [Bool.and_eq_true]; exact ⟨h1, h2⟩⟩

lemma matId_eq_true_iff (m : Nat) (i j : Nat) :
    matId m i j = true ↔ i = j ∧ i < m := by
  unfold matId
  rw [decide_eq_true_iff]

/-- A walk through the edge relation read off a boolean matrix. -/
def walkChain (A : Nat → Nat → Bool) (p : List Nat) : Prop :=
  List.Chain' (fun u v => A u v = true) p

lemma matPow_eq_true_iff (m : Nat) (A : Nat → Nat → Bool)
    (hA : ∀ u v, A u v = true → u < m ∧ v < m) :
    ∀ n i j, matPow m A n i j = true ↔
      ∃ p : List Nat, p.length = n + 1 ∧ (∀ x ∈ p, x < m) ∧ p.head? = some i ∧
        p.getLast? = some j ∧ walkChain A p := by
  intro n
  induction n with
  | zero =>
    intro i j
    show matId m i j = true ↔ _
    rw [matId_eq_true_iff]
    constructor
    · rintro ⟨rfl, him⟩
      exact ⟨[i], rfl, by simpa using him, rfl, rfl, List.chain'_singleton i⟩
    · rintro ⟨p, hlen, hbound, hhead, hlast, _⟩
      match p, hlen with
      | [x], _ =>
        injection hhead with hhead
        injection hlast with hlast
        refine ⟨?_, ?_⟩
        · rw [← hhead, ← hlast]
          rfl
        · rw [← hhead]
          exact hbound x (List.mem_singleton_self x)
  | succ n ih =>
    intro i j
    show matMul m (matPow m A n) A i j = true ↔ _
    rw [matMul_eq_true_iff]
    constructor
    · rintro ⟨k, hk, hpow, hedge⟩
      obtain ⟨p, hlen, hbound, hhead, hlast, hchain⟩ := (ih i k).mp hpow
      refine ⟨p ++ [j], by simp [hlen], ?_, ?_, ?_, ?_⟩
      · intro x hx
        rcases List.mem_append.mp hx with hx | hx
        · exact hbound x hx
        · rw [List.mem_singleton] at hx
          rw [hx]
          exact (hA k j hedge).2
      · match p, hlen with
        | y :: t, _ =>
          rw [List.cons_append]
          exact hhead
      · rw [List.getLast?_concat]
      · rw [walkChain, List.chain'_append]
        refine ⟨hchain, List.chain'_singleton j, ?_⟩
        intro x hx y hy
        rw [hlast, Option.mem_some_iff] at hx
        rw [show ([j] : List Nat).head? = some j from rfl, Option.mem_some_iff] at hy
        subst hx
        subst hy
        exact hedge
    · rintro ⟨p, hlen, hbound, hhead, hlast, hchain⟩
      have hpne : p ≠ [] := by
        intro h
        rw [h] at hlen
        cases hlen
      obtain ⟨q, last, rfl⟩ : ∃ q last, p = q ++ [last] :=
        ⟨p.dropLast, p.getLast hpne, (List.dropLast_append_getLast hpne).symm⟩
      rw [List.getLast?_concat] at hlast
      injection hlast with hlast
      subst hlast
      have hqlen : q.length = n + 1 := by
        rw [List.length_append, List.length_singleton] at hlen
        omega
      have hqne : q ≠ [] := by
        intro h
        rw [h] at hqlen
        cases hqlen
      have hql : q.getLast? = some (q.getLast hqne) := List.getLast?_eq_getLast q hqne
      rw [walkChain, List.chain'_append] at hchain
      obtain ⟨hcq, _, hlink⟩ := hchain
      have hedge : A (q.getLast hqne) last = true := by
        apply hlink
        · rw [Option.mem_def]
          exact hql
        · rw [Option.mem_def]
          rfl
      have hqhead : q.head? = some i := by
        match q, hqne with
        | y :: t, _ =>
          rw [List.cons_append] at hhead
          exact hhead
      refine ⟨q.getLast hqne, ?_, ?_, hedge⟩
      · exact hbound (q.getLast hqne) (List.mem_append.mpr (Or.inl (List.getLast_mem hqne)))
      · exact (ih i (q.getLast hqne)).mpr
          ⟨q, hqlen, fun x hx => hbound x (List.mem_append.mpr (Or.inl hx)), hqhead, hql, hcq⟩

lemma exists_dup_split {α : Type} (p : List α) (h : ¬ p.Nodup) :
    ∃ (xs ys zs : List α) (a : α), p = xs ++ a :: (ys ++ a :: zs) := by
  induction p with
  | nil => exact absurd List.nodup_nil h
  | cons b t ih =>
    by_cases hb : b ∈ t
    · obtain ⟨ys, zs, rfl⟩ := List.append_of_mem hb
      exact ⟨[], ys, zs, b, rfl⟩
    · have hnt : ¬ t.Nodup := by
        intro hn
        exact h (List.nodup_cons.mpr ⟨hb, hn⟩)
      obtain ⟨xs, ys, zs, a, rfl⟩ := ih hnt
      exact ⟨b :: xs, ys, zs, a, rfl⟩

lemma chain'_splice {α : Type} {R : α → α → Prop} (xs ys zs : List α) (a : α)
    (h : List.Chain' R (xs ++ a :: (ys ++ a :: zs))) : List.Chain' R (xs ++ a :: zs) := by
  rw [List.chain'_append] at h ⊢
  obtain ⟨h1, h2, h3⟩ := h
  refine ⟨h1, ?_, ?_⟩
  · have h2' : List.Chain' R ((a :: ys) ++ (a :: zs)) := by
      rw [List.cons_append]
      exact h2
    rw [List.chain'_append] at h2'
    exact h2'.2.1
  · intro x hx y hy
    apply h3 x hx
    rw [Option.mem_def] at hy ⊢
    exact hy

lemma matPow_shorten (m : Nat) (A : Nat → Nat → Bool)
    (hA : ∀ u v, A u v = true → u < m ∧ v < m) :
    ∀ n i j, matPow m A n i j = true → ∃ k, k < m ∧ matPow m A k i j = true := by
  intro n
  induction n using Nat.strong_induction_on with
  | _ n ih =>
    intro i j h
    by_cases hn : n < m
    · exact ⟨n, hn, h⟩
    · obtain ⟨p, hlen, hbound, hhead, hlast, hchain⟩ := (matPow_eq_true_iff m A hA n i j).mp h
      have hnodup : ¬ p.Nodup := by
        intro hnd
        have hsub : p ⊆ List.range m := fun x hx => List.mem_range.mpr (hbound x hx)
        have hle := List.Subperm.length_le (hnd.subperm hsub)
        rw [List.length_range] at hle
        omega
      obtain ⟨xs, ys, zs, a, heq⟩ := exists_dup_split p hnodup
      have hplen : p.length = xs.length + ys.length + zs.length + 2 := by
        rw [heq]
        simp
        omega
      have hchain2 : walkChain A (xs ++ a :: zs) := by
        rw [walkChain, heq] at hchain
        exact chain'_splice xs ys zs a hchain
      have hhead2 : (xs ++ a :: zs).head? = some i := by
        rw [heq] at hhead
        cases xs with
        | nil => exact hhead
        | cons x xs2 => exact hhead
      have hlast2 : (xs ++ a :: zs).getLast? = some j := by
        rw [heq, List.getLast?_append_cons, ← List.cons_append,
          List.getLast?_append_cons] at hlast
        rw [List.getLast?_append_cons]
        exact hlast
      have hbound2 : ∀ x ∈ xs ++ a :: zs, x < m := by
        intro x hx
        apply hbound x
        rw [heq]
        rcases List.mem_append.mp hx with hx | hx
        · exact List.mem_append.mpr (Or.inl hx)
        · rcases List.mem_cons.mp hx with rfl | hx
          · exact List.mem_append.mpr (Or.inr (List.mem_cons_self _ _))
          · exact List.mem_append.mpr
              (Or.inr (List.mem_cons_of_mem a (List.mem_append.mpr
                (Or.inr (List.mem_cons_of_mem a hx)))))
      have hlen2 : (xs ++ a :: zs).length = (xs.length + zs.length) + 1 := by
        simp
        omega
      have hpow2 : matPow m A (xs.length + zs.length) i j = true :=
        (matPow_eq_true_iff m A hA (xs.length + zs.length) i j).mpr
          ⟨xs ++ a :: zs, hlen2, hbound2, hhead2, hlast2, hchain2⟩
      exact ih (xs.length + zs.length) (by omega) i j hpow2

lemma matSum_eq_true_iff (m : Nat) (A : Nat → Nat → Bool) :
    ∀ n i j, matSum m A n i j = true ↔ ∃ k, k ≤ n ∧ matPow m A k i j = true := by
  intro n
  induction n with
  | zero =>
    intro i j
    show matId m i j = true ↔ _
    constructor
    · intro h
      exact ⟨0, le_refl 0, h⟩
    · rintro ⟨k, hk, h⟩
      obtain rfl : k = 0 := by omega
      exact h
  | succ n ih =>
    intro i j
    show (matSum m A n i j || matPow m A (n + 1) i j) = true ↔ _
    rw [Bool.or_eq_true, ih]
    constructor
    · rintro (⟨k, hk, h⟩ | h)
      · exact ⟨k, by omega, h⟩
      · exact ⟨n + 1, le_refl (n + 1), h⟩
    · rintro ⟨k, hk, h⟩
      by_cases hkn : k ≤ n
      · exact Or.inl ⟨k, hkn, h⟩
      · obtain rfl : k = n + 1 := by omega
        exact Or.inr h

lemma matSum_stab (m : Nat) (A : Nat → Nat → Bool)
    (hA : ∀ u v, A u v = true → u < m ∧ v < m) (N t : Nat) (hm : m ≤ N + 1) :
    matSum m A (N + t) = matSum m A N := by
  funext i j
  apply bool_eq_of_iff
  rw [matSum_eq_true_iff, matSum_eq_true_iff]
  constructor
  · rintro ⟨k, hk, h⟩
    by_cases hkN : k ≤ N
    · exact ⟨k, hkN, h⟩
    · obtain ⟨k2, hk2, h2⟩ := matPow_shorten m A hA k i j h
      exact ⟨k2, by omega, h2⟩
  · rintro ⟨k, hk, h⟩
    exact ⟨k, by omega, h⟩

/-! ### The substring table as a triangular matrix over positions `0..L` -/

/-- The substring table and epsilon flag of an operand, read off as an
upper-triangular boolean matrix over the positions `0..L` of the reference
string: diagonal entries are `hasEpsilon`, the entry `(u, v)` with `u < v` is
the table entry for the window `[u, v)`. -/
def toT (L : Nat) (x : Operand) : Nat → Nat → Bool := fun u v =>
  if u ≤ L ∧ v ≤ L then
    (if u = v then x.containsEpsilon
     else if u < v then x.containsSubstring u (v - u)
     else false)
  else false

lemma toT_diag (L : Nat) (x : Operand) (u : Nat) (h : u ≤ L) :
    toT L x u u = x.containsEpsilon := by
  unfold toT
  rw [if_pos ⟨h, h⟩, if_pos rfl]

lemma toT_lt (L : Nat) (x : Operand) (u v : Nat) (hu : u ≤ L) (hv : v ≤ L) (huv : u < v) :
    toT L x u v = x.containsSubstring u (v - u) := by
  unfold toT
  rw [if_pos ⟨hu, hv⟩, if_neg (by omega), if_pos huv]

lemma toT_gt (L : Nat) (x : Operand) (u v : Nat) (hu : u ≤ L) (hv : v ≤ L) (h : v < u) :
    toT L x u v = false := by
  unfold toT
  rw [if_pos ⟨hu, hv⟩, if_neg (by omega), if_neg (by omega)]

lemma toT_out (L : Nat) (x : Operand) (u v : Nat) (h : ¬ (u ≤ L ∧ v ≤ L)) :
    toT L x u v = false := by
  unfold toT
  rw [if_neg h]

lemma toT_bounded (L : Nat) (x : Operand) :
    ∀ u v, toT L x u v = true → u < L + 1 ∧ v < L + 1 := by
  intro u v h
  by_cases hg : u ≤ L ∧ v ≤ L
  · omega
  · rw [toT_out L x u v hg] at h
    cases h

lemma toT_mul (L : Nat) (x y : Operand) (hx : x.wordLength = L) :
    toT L (x.mul y) = matMul (L + 1) (toT L x) (toT L y) := by
  funext u v
  apply bool_eq_of_iff
  rw [matMul_eq_true_iff]
  by_cases hg : u ≤ L ∧ v ≤ L
  · obtain ⟨hu, hv⟩ := hg
    rcases Nat.lt_trichotomy u v with huv | huv | huv
    · -- window entry
      rw [toT_lt L _ u v hu hv huv]
      rw [show (x.mul y).containsSubstring = containsSubstringForMultiply x.wordLength x y
          from rfl, hx,
        containsSubstringForMultiply_eq_true_iff L x y u (v - u) (by omega) (by omega) (by omega)]
      constructor
      · rintro ⟨k, hk, ht⟩
        rw [substringTermForMultiply_eq_true_iff x y u (v - u) k (by omega) hk] at ht
        rcases ht with ⟨hk0, he, hb⟩ | ⟨hke, he, hb⟩ | ⟨hk1, hk2, ha, hb⟩
        · refine ⟨u, by omega, ?_, ?_⟩
          · rw [toT_diag L x u hu]
            exact he
          · rw [toT_lt L y u v hu hv huv]
            exact hb
        · refine ⟨v, by omega, ?_, ?_⟩
          · rw [toT_lt L x u v hu hv huv]
            exact hb
          · rw [toT_diag L y v hv]
            exact he
        · refine ⟨u + k, by omega, ?_, ?_⟩
          · rw [toT_lt L x u (u + k) hu (by omega) (by omega),
              show u + k - u = k from by omega]
            exact ha
          · rw [toT_lt L y (u + k) v (by omega) hv (by omega),
              show v - (u + k) = v - u - k from by omega]
            exact hb
      · rintro ⟨w, hw, h1, h2⟩
        rcases Nat.lt_trichotomy w u with hwu | hwu | hwu
        · rw [toT_gt L x u w hu (by omega) hwu] at h1
          cases h1
        · subst hwu
          rw [toT_diag L x w (by omega)] at h1
          rw [toT_lt L y w v (by omega) hv huv] at h2
          refine ⟨0, by omega, ?_⟩
          rw [substringTermForMultiply_eq_true_iff x y w (v - w) 0 (by omega) (by omega)]
          exact Or.inl ⟨rfl, h1, h2⟩
        · rcases Nat.lt_trichotomy w v with hwv | hwv | hwv
          · rw [toT_lt L x u w hu (by omega) hwu] at h1
            rw [toT_lt L y w v (by omega) hv hwv] at h2
            refine ⟨w - u, by omega, ?_⟩
            rw [substringTermForMultiply_eq_true_iff x y u (v - u) (w - u) (by omega) (by omega)]
            refine Or.inr (Or.inr ⟨by omega, by omega, h1, ?_⟩)
            rw [show u + (w - u) = w from by omega, show v - u - (w - u) = v - w from by omega]
            exact h2
          · subst hwv
            rw [toT_lt L x u w hu (by omega) hwu] at h1
            rw [toT_diag L y w (by omega)] at h2
            refine ⟨w - u, by omega, ?_⟩
            rw [substringTermForMultiply_eq_true_iff x y u (w - u) (w - u) (by omega) (by omega)]
            exact Or.inr (Or.inl ⟨rfl, h2, h1⟩)
          · rw [toT_gt L y w v (by omega) hv hwv] at h2
            cases h2
    · -- diagonal entry
      subst huv
      rw [toT_diag L _ u hu]
      rw [show (x.mul y).containsEpsilon = (x.containsEpsilon && y.containsEpsilon) from rfl,
        Bool.and_eq_true]
      constructor
      · rintro ⟨h1, h2⟩
        refine ⟨u, by omega, ?_, ?_⟩
        · rw [toT_diag L x u hu]
          exact h1
        · rw [toT_diag L y u hu]
          exact h2
      · rintro ⟨w, hw, h1, h2⟩
        rcases Nat.lt_trichotomy w u with hwu | hwu | hwu
        · rw [toT_gt L x u w hu (by omega) hwu] at h1
          cases h1
        · subst hwu
          rw [toT_diag L x w hu] at h1
          rw [toT_diag L y w hu] at h2
          exact ⟨h1, h2⟩
        · rw [toT_gt L y w u (by omega) hu hwu] at h2
          cases h2
    · -- lower-triangle entry
      rw [toT_gt L _ u v hu hv huv]
      constructor
      · intro h
        cases h
      · rintro ⟨w, hw, h1, h2⟩
        rcases Nat.lt_trichotomy w u with hwu | hwu | hwu
        · rw [toT_gt L x u w hu (by omega) hwu] at h1
          cases h1
        · subst hwu
          rw [toT_gt L y w v (by omega) hv huv] at h2
          cases h2
        · rcases Nat.lt_trichotomy w v with hwv | hwv | hwv
          · omega
          · omega
          · by_cases hwL : w ≤ L
            · rw [toT_gt L y w v hwL hv hwv] at h2
              cases h2
            · rw [toT_out L y w v (by omega)] at h2
              cases h2
  · rw [toT_out L _ u v hg]
    constructor
    · intro h
      cases h
    · rintro ⟨w, hw, h1, h2⟩
      by_cases hu : u ≤ L
      · have hv : ¬ v ≤ L := by omega
        by_cases hwL : w ≤ L
        · rw [toT_out L y w v (by omega)] at h2
          cases h2
        · rw [toT_out L x u w (by omega)] at h1
          cases h1
      · rw [toT_out L x u w (by omega)] at h1
        cases h1

lemma toT_add (L : Nat) (x y : Operand) (hx : x.wordLength = L) :
    toT L (x.add y) = matAdd (toT L x) (toT L y) := by
  funext u v
  show toT L (x.add y) u v = (toT L x u v || toT L y u v)
  by_cases hg : u ≤ L ∧ v ≤ L
  · obtain ⟨hu, hv⟩ := hg
    rcases Nat.lt_trichotomy u v with huv | huv | huv
    · rw [toT_lt L _ u v hu hv huv, toT_lt L x u v hu hv huv, toT_lt L y u v hu hv huv]
      show (if u < x.wordLength ∧ v - u ≤ x.wordLength - u then
          x.containsSubstring u (v - u) || y.containsSubstring u (v - u)
        else x.containsSubstring u (v - u)) = _
      rw [if_pos (by rw [hx]; omega)]
    · subst huv
      rw [toT_diag L _ u hu, toT_diag L x u hu, toT_diag L y u hu]
      rfl
    · rw [toT_gt L _ u v hu hv huv, toT_gt L x u v hu hv huv, toT_gt L y u v hu hv huv]
      rfl
  · rw [toT_out L _ u v hg, toT_out L x u v hg, toT_out L y u v hg]
    rfl

lemma toT_leafEps (L : Nat) (W : List Char) :
    toT L (Operand.leaf EPSILON W) = matId (L + 1) := by
  funext u v
  apply bool_eq_of_iff
  rw [matId_eq_true_iff]
  by_cases hg : u ≤ L ∧ v ≤ L
  · obtain ⟨hu, hv⟩ := hg
    rcases Nat.lt_trichotomy u v with huv | huv | huv
    · rw [toT_lt L _ u v hu hv huv, leafEps_containsSubstring]
      constructor
      · intro h
        cases h
      · intro h
        omega
    · subst huv
      rw [toT_diag L _ u hu, leafEps_containsEpsilon]
      constructor
      · intro _
        omega
      · intro _
        rfl
    · rw [toT_gt L _ u v hu hv huv]
      constructor
      · intro h
        cases h
      · intro h
        omega
  · rw [toT_out L _ u v hg]
    constructor
    · intro h
      cases h
    · intro h
      omega

/-! ### The boundary data as a matrix over prefix-progress states

States: `0` = nothing matched yet; `p ∈ [1, L-1]` = the length-`p` prefix of
`W` is a suffix of the string built so far; `L+1` = `W` is already contained;
index `L` is an unused dead state (the vectors track no length-`L` boundary
fact). -/

def toA (L : Nat) (x : Operand) : Nat → Nat → Bool := fun u v =>
  if u ≤ L + 1 ∧ v ≤ L + 1 then
    (if u = v then
      (if 1 ≤ u ∧ u ≤ L - 1 then x.containsEpsilon else true)
     else if u < v then
      (if u = 0 then
        (if v = L + 1 then x.containsWordAsSubstring
         else if 1 ≤ v ∧ v ≤ L - 1 then x.containsSuffixEqualsToPrefix v
         else false)
       else if v = L + 1 then
        (if 1 ≤ u ∧ u ≤ L - 1 then x.containsPrefixEqualsToSuffix (L - u) else false)
       else if v ≤ L - 1 then x.containsSubstring u (v - u)
       else false)
     else false)
  else false

lemma toA_diag_mid (L : Nat) (x : Operand) (u : Nat) (h1 : 1 ≤ u) (h2 : u ≤ L - 1) :
    toA L x u u = x.containsEpsilon := by
  unfold toA
  rw [if_pos ⟨by omega, by omega⟩, if_pos rfl, if_pos ⟨h1, h2⟩]

lemma toA_diag_unit (L : Nat) (x : Operand) (u : Nat) (hu : u ≤ L + 1)
    (h : ¬ (1 ≤ u ∧ u ≤ L - 1)) : toA L x u u = true := by
  unfold toA
  rw [if_pos ⟨hu, hu⟩, if_pos rfl, if_neg h]

lemma toA_start_mw (L : Nat) (x : Operand) :
    toA L x 0 (L + 1) = x.containsWordAsSubstring := by
  unfold toA
  rw [if_pos ⟨by omega, by omega⟩, if_neg (by omega), if_pos (by omega), if_pos rfl,
    if_pos rfl]

lemma toA_start_sp (L : Nat) (x : Operand) (v : Nat) (h1 : 1 ≤ v) (h2 : v ≤ L - 1) :
    toA L x 0 v = x.containsSuffixEqualsToPrefix v := by
  unfold toA
  rw [if_pos ⟨by omega, by omega⟩, if_neg (by omega), if_pos (by omega), if_pos rfl,
    if_neg (by omega), if_pos ⟨h1, h2⟩]

lemma toA_col_dead (L : Nat) (x : Operand) (u : Nat) (hu : u < L) :
    toA L x u L = false := by
  unfold toA
  rw [if_pos ⟨by omega, by omega⟩, if_neg (by omega), if_pos hu]
  by_cases h0 : u = 0
  · rw [if_pos h0, if_neg (by omega), if_neg (by omega)]
  · rw [if_neg h0, if_neg (by omega), if_neg (by omega)]

lemma toA_dead_end (L : Nat) (x : Operand) (hL : 1 ≤ L) :
    toA L x L (L + 1) = false := by
  unfold toA
  rw [if_pos ⟨by omega, by omega⟩, if_neg (by omega), if_pos (by omega), if_neg (by omega),
    if_pos rfl, if_neg (by omega)]

lemma toA_ps (L : Nat) (x : Operand) (u : Nat) (h1 : 1 ≤ u) (h2 : u ≤ L - 1) :
    toA L x u (L + 1) = x.containsPrefixEqualsToSuffix (L - u) := by
  unfold toA
  rw [if_pos ⟨by omega, by omega⟩, if_neg (by omega), if_pos (by omega), if_neg (by omega),
    if_pos rfl, if_pos ⟨h1, h2⟩]

lemma toA_mid_cs (L : Nat) (x : Operand) (u v : Nat) (h1 : 1 ≤ u) (huv : u < v)
    (h2 : v ≤ L - 1) : toA L x u v = x.containsSubstring u (v - u) := by
  unfold toA
  rw [if_pos ⟨by omega, by omega⟩, if_neg (by omega), if_pos huv, if_neg (by omega),
    if_neg (by omega), if_pos h2]

lemma toA_gt (L : Nat) (x : Operand) (u v : Nat) (hu : u ≤ L + 1) (hv : v ≤ L + 1)
    (h : v < u) : toA L x u v = false := by
  unfold toA
  rw [if_pos ⟨hu, hv⟩, if_neg (by omega), if_neg (by omega)]

lemma toA_out (L : Nat) (x : Operand) (u v : Nat) (h : ¬ (u ≤ L + 1 ∧ v ≤ L + 1)) :
    toA L x u v = false := by
  unfold toA
  rw [if_neg h]

lemma toA_bounded (L : Nat) (x : Operand) :
    ∀ u v, toA L x u v = true → u < L + 2 ∧ v < L + 2 := by
  intro u v h
  by_cases hg : u ≤ L + 1 ∧ v ≤ L + 1
  · omega
  · rw [toA_out L x u v hg] at h
    cases h

lemma toA_mul (L : Nat) (x y : Operand) (hx : x.wordLength = L) :
    toA L (x.mul y) = matMul (L + 2) (toA L x) (toA L y) := by
  funext u v
  apply bool_eq_of_iff
  rw [matMul_eq_true_iff]
  by_cases hg : u ≤ L + 1 ∧ v ≤ L + 1
  · obtain ⟨hu, hv⟩ := hg
    rcases Nat.lt_trichotomy u v with huv | huv | huv
    · by_cases hu0 : u = 0
      · subst hu0
        by_cases hvL1 : v = L + 1
        · subst hvL1
          rw [toA_start_mw L (x.mul y)]
          rw [show (x.mul y).containsWordAsSubstring
              = containsWordAsSubstringForMultiply x.wordLength x y from rfl, hx,
            containsWordAsSubstringForMultiply_eq_true_iff L x y]
          constructor
          · rintro (h | h | ⟨p, hp1, hp2, hsp, hps⟩)
            · refine ⟨L + 1, by omega, ?_, ?_⟩
              · rw [toA_start_mw]
                exact h
              · rw [toA_diag_unit L y (L + 1) (by omega) (by omega)]
            · refine ⟨0, by omega, ?_, ?_⟩
              · rw [toA_diag_unit L x 0 (by omega) (by omega)]
              · rw [toA_start_mw]
                exact h
            · refine ⟨p, by omega, ?_, ?_⟩
              · rw [toA_start_sp L x p hp1 (by omega)]
                exact hsp
              · rw [toA_ps L y p hp1 (by omega)]
                exact hps
          · rintro ⟨w, hw, h1, h2⟩
            by_cases hw0 : w = 0
            · subst hw0
              rw [toA_start_mw] at h2
              exact Or.inr (Or.inl h2)
            · by_cases hwL1 : w = L + 1
              · subst hwL1
                rw [toA_start_mw] at h1
                exact Or.inl h1
              · by_cases hwmid : 1 ≤ w ∧ w ≤ L - 1
                · rw [toA_start_sp L x w hwmid.1 hwmid.2] at h1
                  rw [toA_ps L y w hwmid.1 hwmid.2] at h2
                  exact Or.inr (Or.inr ⟨w, hwmid.1, by omega, h1, h2⟩)
                · have hwL : w = L := by omega
                  rw [hwL] at h1
                  rw [toA_col_dead L x 0 (by omega)] at h1
                  cases h1
        · by_cases hvmid : 1 ≤ v ∧ v ≤ L - 1
          · rw [toA_start_sp L (x.mul y) v hvmid.1 hvmid.2]
            rw [show (x.mul y).containsSuffixEqualsToPrefix
                = suffixEqualsToPrefixForMultiply x.wordLength x y from rfl, hx,
              suffixEqualsToPrefixForMultiply_eq_true_iff L x y v hvmid.1 (by omega)]
            constructor
            · rintro (h | ⟨hsp, he⟩ | ⟨q, hq1, hq2, hsp, hcs⟩)
              · refine ⟨0, by omega, ?_, ?_⟩
                · rw [toA_diag_unit L x 0 (by omega) (by omega)]
                · rw [toA_start_sp L y v hvmid.1 hvmid.2]
                  exact h
              · refine ⟨v, by omega, ?_, ?_⟩
                · rw [toA_start_sp L x v hvmid.1 hvmid.2]
                  exact hsp
                · rw [toA_diag_mid L y v hvmid.1 hvmid.2]
                  exact he
              · refine ⟨q, by omega, ?_, ?_⟩
                · rw [toA_start_sp L x q hq1 (by omega)]
                  exact hsp
                · rw [toA_mid_cs L y q v hq1 hq2 hvmid.2]
                  exact hcs
            · rintro ⟨w, hw, h1, h2⟩
              by_cases hw0 : w = 0
              · subst hw0
                rw [toA_start_sp L y v hvmid.1 hvmid.2] at h2
                exact Or.inl h2
              · rcases Nat.lt_trichotomy w v with hwv | hwv | hwv
                · rw [toA_start_sp L x w (by omega) (by omega)] at h1
                  rw [toA_mid_cs L y w v (by omega) hwv hvmid.2] at h2
                  exact Or.inr (Or.inr ⟨w, by omega, hwv, h1, h2⟩)
                · subst hwv
                  rw [toA_start_sp L x w hvmid.1 hvmid.2] at h1
                  rw [toA_diag_mid L y w hvmid.1 hvmid.2] at h2
                  exact Or.inr (Or.inl ⟨h1, h2⟩)
                · rw [toA_gt L y w v (by omega) (by omega) hwv] at h2
                  cases h2
          · have hvL : v = L := by omega
            rw [hvL]
            rw [toA_col_dead L (x.mul y) 0 (by omega)]
            constructor
            · intro h
              cases h
            · rintro ⟨w, hw, h1, h2⟩
              by_cases hwL1 : w = L + 1
              · rw [hwL1] at h2
                rw [toA_gt L y (L + 1) L (by omega) (by omega) (by omega)] at h2
                cases h2
              · by_cases hwL : w = L
                · rw [hwL] at h1
                  rw [toA_col_dead L x 0 (by omega)] at h1
                  cases h1
                · rw [toA_col_dead L y w (by omega)] at h2
                  cases h2
      · by_cases hvL1 : v = L + 1
        · subst hvL1
          by_cases humid : 1 ≤ u ∧ u ≤ L - 1
          · rw [toA_ps L (x.mul y) u humid.1 humid.2]
            rw [show (x.mul y).containsPrefixEqualsToSuffix
                = prefixEqualsToSuffixForMultiply x.wordLength x y from rfl, hx,
              prefixEqualsToSuffixForMultiply_eq_true_iff L x y (L - u) (by omega) (by omega)]
            constructor
            · rintro (h | ⟨he, hps⟩ | ⟨r, hr1, hr2, hcs, hps⟩)
              · refine ⟨L + 1, by omega, ?_, ?_⟩
                · rw [toA_ps L x u humid.1 humid.2]
                  exact h
                · rw [toA_diag_unit L y (L + 1) (by omega) (by omega)]
              · refine ⟨u, by omega, ?_, ?_⟩
                · rw [toA_diag_mid L x u humid.1 humid.2]
                  exact he
                · rw [toA_ps L y u humid.1 humid.2]
                  exact hps
              · refine ⟨L - r, by omega, ?_, ?_⟩
                · rw [toA_mid_cs L x u (L - r) humid.1 (by omega) (by omega),
                    show L - r - u = L - u - r from by omega]
                  rw [show x.containsSubstring u (L - u - r)
                      = x.containsSubstring (L - (L - u)) (L - u - r) from by
                    rw [show L - (L - u) = u from by omega]]
                  exact hcs
                · rw [toA_ps L y (L - r) (by omega) (by omega),
                    show L - (L - r) = r from by omega]
                  exact hps
            · rintro ⟨w, hw, h1, h2⟩
              rcases Nat.lt_trichotomy w u with hwu | hwu | hwu
              · rw [toA_gt L x u w (by omega) (by omega) hwu] at h1
                cases h1
              · subst hwu
                rw [toA_diag_mid L x w humid.1 humid.2] at h1
                rw [toA_ps L y w humid.1 humid.2] at h2
                exact Or.inr (Or.inl ⟨h1, h2⟩)
              · by_cases hwend : w = L + 1
                · rw [hwend] at h1
                  rw [toA_ps L x u humid.1 humid.2] at h1
                  exact Or.inl h1
                · by_cases hwL : w = L
                  · rw [hwL] at h1
                    rw [toA_col_dead L x u (by omega)] at h1
                    cases h1
                  · rw [toA_mid_cs L x u w humid.1 hwu (by omega)] at h1
                    rw [toA_ps L y w (by omega) (by omega)] at h2
                    refine Or.inr (Or.inr ⟨L - w, by omega, by omega, ?_, h2⟩)
                    rw [show L - (L - u) = u from by omega,
                      show L - u - (L - w) = w - u from by omega]
                    exact h1
          · have huL : u = L := by omega
            rw [huL]
            rw [toA_dead_end L (x.mul y) (by omega)]
            constructor
            · intro h
              cases h
            · rintro ⟨w, hw, h1, h2⟩
              rcases Nat.lt_trichotomy w L with hwu | hwu | hwu
              · rw [toA_gt L x L w (by omega) (by omega) hwu] at h1
                cases h1
              · rw [hwu] at h2
                rw [toA_dead_end L y (by omega)] at h2
                cases h2
              · have hwend : w = L + 1 := by omega
                rw [hwend] at h1
                rw [toA_dead_end L x (by omega)] at h1
                cases h1
        · by_cases hvmid : v ≤ L - 1
          · rw [toA_mid_cs L (x.mul y) u v (by omega) huv hvmid]
            rw [show (x.mul y).containsSubstring
                = containsSubstringForMultiply x.wordLength x y from rfl, hx,
              containsSubstringForMultiply_eq_true_iff L x y u (v - u)
                (by omega) (by omega) (by omega)]
            constructor
            · rintro ⟨k, hk, ht⟩
              rw [substringTermForMultiply_eq_true_iff x y u (v - u) k (by omega) hk] at ht
              rcases ht with ⟨hk0, he, hb⟩ | ⟨hke, he, hb⟩ | ⟨hk1, hk2, ha, hb⟩
              · refine ⟨u, by omega, ?_, ?_⟩
                · rw [toA_diag_mid L x u (by omega) (by omega)]
                  exact he
                · rw [toA_mid_cs L y u v (by omega) huv hvmid]
                  exact hb
              · refine ⟨v, by omega, ?_, ?_⟩
                · rw [toA_mid_cs L x u v (by omega) huv hvmid]
                  exact hb
                · rw [toA_diag_mid L y v (by omega) hvmid]
                  exact he
              · refine ⟨u + k, by omega, ?_, ?_⟩
                · rw [toA_mid_cs L x u (u + k) (by omega) (by omega) (by omega),
                    show u + k - u = k from by omega]
                  exact ha
                · rw [toA_mid_cs L y (u + k) v (by omega) (by omega) hvmid,
                    show v - (u + k) = v - u - k from by omega]
                  exact hb
            · rintro ⟨w, hw, h1, h2⟩
              rcases Nat.lt_trichotomy w u with hwu | hwu | hwu
              · rw [toA_gt L x u w (by omega) (by omega) hwu] at h1
                cases h1
              · subst hwu
                rw [toA_diag_mid L x w (by omega) (by omega)] at h1
                rw [toA_mid_cs L y w v (by omega) huv hvmid] at h2
                refine ⟨0, by omega, ?_⟩
                rw [substringTermForMultiply_eq_true_iff x y w (v - w) 0 (by omega) (by omega)]
                exact Or.inl ⟨rfl, h1, h2⟩
              · rcases Nat.lt_trichotomy w v with hwv | hwv | hwv
                · rw [toA_mid_cs L x u w (by omega) hwu (by omega)] at h1
                  rw [toA_mid_cs L y w v (by omega) hwv hvmid] at h2
                  refine ⟨w - u, by omega, ?_⟩
                  rw [substringTermForMultiply_eq_true_iff x y u (v - u) (w - u)
                    (by omega) (by omega)]
                  refine Or.inr (Or.inr ⟨by omega, by omega, h1, ?_⟩)
                  rw [show u + (w - u) = w from by omega,
                    show v - u - (w - u) = v - w from by omega]
                  exact h2
                · subst hwv
                  rw [toA_mid_cs L x u w (by omega) hwu hvmid] at h1
                  rw [toA_diag_mid L y w (by omega) hvmid] at h2
                  refine ⟨w - u, by omega, ?_⟩
                  rw [substringTermForMultiply_eq_true_iff x y u (w - u) (w - u)
                    (by omega) (by omega)]
                  exact Or.inr (Or.inl ⟨rfl, h2, h1⟩)
                · rw [toA_gt L y w v (by omega) (by omega) hwv] at h2
                  cases h2
          · have hvL : v = L := by omega
            rw [hvL]
            rw [toA_col_dead L (x.mul y) u (by omega)]
            constructor
            · intro h
              cases h
            · rintro ⟨w, hw, h1, h2⟩
              by_cases hwend : w = L + 1
              · rw [hwend] at h2
                rw [toA_gt L y (L + 1) L (by omega) (by omega) (by omega)] at h2
                cases h2
              · by_cases hwL : w = L
                · rw [hwL] at h1
                  rw [toA_col_dead L x u (by omega)] at h1
                  cases h1
                · by_cases hwu : w < u
                  · rw [toA_gt L x u w (by omega) (by omega) hwu] at h1
                    cases h1
                  · rw [toA_col_dead L y w (by omega)] at h2
                    cases h2
    · subst huv
      by_cases humid : 1 ≤ u ∧ u ≤ L - 1
      · rw [toA_diag_mid L (x.mul y) u humid.1 humid.2]
        rw [show (x.mul y).containsEpsilon = (x.containsEpsilon && y.containsEpsilon) from rfl,
          Bool.and_eq_true]
        constructor
        · rintro ⟨h1, h2⟩
          refine ⟨u, by omega, ?_, ?_⟩
          · rw [toA_diag_mid L x u humid.1 humid.2]
            exact h1
          · rw [toA_diag_mid L y u humid.1 humid.2]
            exact h2
        · rintro ⟨w, hw, h1, h2⟩
          rcases Nat.lt_trichotomy w u with hwu | hwu | hwu
          · rw [toA_gt L x u w (by omega) (by omega) hwu] at h1
            cases h1
          · subst hwu
            rw [toA_diag_mid L x w humid.1 humid.2] at h1
            rw [toA_diag_mid L y w humid.1 humid.2] at h2
            exact ⟨h1, h2⟩
          · rw [toA_gt L y w u (by omega) (by omega) hwu] at h2
            cases h2
      · rw [toA_diag_unit L (x.mul y) u hu humid]
        constructor
        · intro _
          refine ⟨u, by omega, ?_, ?_⟩
          · rw [toA_diag_unit L x u hu humid]
          · rw [toA_diag_unit L y u hu humid]
        · intro _
          rfl
    · rw [toA_gt L (x.mul y) u v hu hv huv]
      constructor
      · intro h
        cases h
      · rintro ⟨w, hw, h1, h2⟩
        by_cases hwu : w < u
        · rw [toA_gt L x u w hu (by omega) hwu] at h1
          cases h1
        · rw [toA_gt L y w v (by omega) hv (by omega)] at h2
          cases h2
  · rw [toA_out L (x.mul y) u v hg]
    constructor
    · intro h
      cases h
    · rintro ⟨w, hw, h1, h2⟩
      by_cases hu : u ≤ L + 1
      · rw [toA_out L y w v (by omega)] at h2
        cases h2
      · rw [toA_out L x u w (by omega)] at h1
        cases h1

lemma toA_add (L : Nat) (x y : Operand) (hx : x.wordLength = L) :
    toA L (x.add y) = matAdd (toA L x) (toA L y) := by
  funext u v
  show toA L (x.add y) u v = (toA L x u v || toA L y u v)
  by_cases hg : u ≤ L + 1 ∧ v ≤ L + 1
  · obtain ⟨hu, hv⟩ := hg
    rcases Nat.lt_trichotomy u v with huv | huv | huv
    · by_cases hu0 : u = 0
      · subst hu0
        by_cases hvL1 : v = L + 1
        · subst hvL1
          rw [toA_start_mw, toA_start_mw, toA_start_mw]
          rfl
        · by_cases hvmid : 1 ≤ v ∧ v ≤ L - 1
          · rw [toA_start_sp L _ v hvmid.1 hvmid.2, toA_start_sp L x v hvmid.1 hvmid.2,
              toA_start_sp L y v hvmid.1 hvmid.2]
            show (if 1 ≤ v ∧ v ≤ x.wordLength then
                x.containsSuffixEqualsToPrefix v || y.containsSuffixEqualsToPrefix v
              else x.containsSuffixEqualsToPrefix v) = _
            rw [if_pos (by rw [hx]; omega)]
          · have hvL : v = L := by omega
            rw [hvL, toA_col_dead L _ 0 (by omega), toA_col_dead L x 0 (by omega),
              toA_col_dead L y 0 (by omega)]
            rfl
      · by_cases hvL1 : v = L + 1
        · subst hvL1
          by_cases humid : 1 ≤ u ∧ u ≤ L - 1
          · rw [toA_ps L _ u humid.1 humid.2, toA_ps L x u humid.1 humid.2,
              toA_ps L y u humid.1 humid.2]
            show (if 1 ≤ L - u ∧ L - u ≤ x.wordLength then
                x.containsPrefixEqualsToSuffix (L - u) || y.containsPrefixEqualsToSuffix (L - u)
              else x.containsPrefixEqualsToSuffix (L - u)) = _
            rw [if_pos (by rw [hx]; omega)]
          · have huL : u = L := by omega
            rw [huL, toA_dead_end L _ (by omega), toA_dead_end L x (by omega),
              toA_dead_end L y (by omega)]
            rfl
        · by_cases hvmid : v ≤ L - 1
          · rw [toA_mid_cs L _ u v (by omega) huv hvmid,
              toA_mid_cs L x u v (by omega) huv hvmid,
              toA_mid_cs L y u v (by omega) huv hvmid]
            show (if u < x.wordLength ∧ v - u ≤ x.wordLength - u then
                x.containsSubstring u (v - u) || y.containsSubstring u (v - u)
              else x.containsSubstring u (v - u)) = _
            rw [if_pos (by rw [hx]; omega)]
          · have hvL : v = L := by omega
            rw [hvL, toA_col_dead L _ u (by omega), toA_col_dead L x u (by omega),
              toA_col_dead L y u (by omega)]
            rfl
    · subst huv
      by_cases humid : 1 ≤ u ∧ u ≤ L - 1
      · rw [toA_diag_mid L _ u humid.1 humid.2, toA_diag_mid L x u humid.1 humid.2,
          toA_diag_mid L y u humid.1 humid.2]
        rfl
      · rw [toA_diag_unit L _ u hu humid, toA_diag_unit L x u hu humid,
          toA_diag_unit L y u hu humid]
        rfl
    · rw [toA_gt L _ u v hu hv huv, toA_gt L x u v hu hv huv, toA_gt L y u v hu hv huv]
      rfl
  · rw [toA_out L _ u v hg, toA_out L x u v hg, toA_out L y u v hg]
    rfl

lemma toA_leafEps (L : Nat) (W : List Char) :
    toA L (Operand.leaf EPSILON W) = matId (L + 2) := by
  funext u v
  apply bool_eq_of_iff
  rw [matId_eq_true_iff]
  by_cases hg : u ≤ L + 1 ∧ v ≤ L + 1
  · obtain ⟨hu, hv⟩ := hg
    rcases Nat.lt_trichotomy u v with huv | huv | huv
    · have hfalse : toA L (Operand.leaf EPSILON W) u v = false := by
        by_cases hu0 : u = 0
        · subst hu0
          by_cases hvL1 : v = L + 1
          · rw [hvL1, toA_start_mw, leafEps_containsWordAsSubstring]
          · by_cases hvmid : 1 ≤ v ∧ v ≤ L - 1
            · rw [toA_start_sp L _ v hvmid.1 hvmid.2, leafEps_containsSuffixEqualsToPrefix]
            · have hvL : v = L := by omega
              rw [hvL, toA_col_dead L _ 0 (by omega)]
        · by_cases hvL1 : v = L + 1
          · by_cases humid : 1 ≤ u ∧ u ≤ L - 1
            · rw [hvL1, toA_ps L _ u humid.1 humid.2, leafEps_containsPrefixEqualsToSuffix]
            · have huL : u = L := by omega
              rw [hvL1, huL, toA_dead_end L _ (by omega)]
          · by_cases hvmid : v ≤ L - 1
            · rw [toA_mid_cs L _ u v (by omega) huv hvmid, leafEps_containsSubstring]
            · have hvL : v = L := by omega
              rw [hvL, toA_col_dead L _ u (by omega)]
      rw [hfalse]
      constructor
      · intro h
        cases h
      · intro h
        omega
    · subst huv
      by_cases humid : 1 ≤ u ∧ u ≤ L - 1
      · rw [toA_diag_mid L _ u humid.1 humid.2, leafEps_containsEpsilon]
        constructor
        · intro _
          omega
        · intro _
          rfl
      · rw [toA_diag_unit L _ u hu humid]
        constructor
        · intro _
          omega
        · intro _
          rfl
    · rw [toA_gt L _ u v hu hv huv]
      constructor
      · intro h
        cases h
      · intro h
        omega
  · rw [toA_out L _ u v hg]
    constructor
    · intro h
      cases h
    · intro h
      omega

/-! ### The accumulated Kleene-star operand as a sum of matrix powers -/

lemma mul_wordLength (x y : Operand) : (x.mul y).wordLength = x.wordLength := rfl

lemma add_wordLength (x y : Operand) : (x.add y).wordLength = x.wordLength := rfl

lemma opPow_wordLength (e : Operand) (word : List Char) (n : Nat) :
    (opPow e word n).wordLength = word.length := by
  induction n with
  | zero => exact leaf_wordLength EPSILON word
  | succ n ih => exact ih

lemma powerUnion_wordLength (e : Operand) (word : List Char) (n : Nat) :
    (powerUnion e word n).wordLength = word.length := by
  induction n with
  | zero => exact leaf_wordLength EPSILON word
  | succ n ih => exact ih

lemma toT_opPow (e : Operand) (word : List Char) (n : Nat) :
    toT word.length (opPow e word n) = matPow (word.length + 1) (toT word.length e) n := by
  induction n with
  | zero => exact toT_leafEps word.length word
  | succ n ih =>
    rw [show opPow e word (n + 1) = (opPow e word n).mul e from rfl,
      toT_mul word.length (opPow e word n) e (opPow_wordLength e word n), ih]
    rfl

lemma toT_powerUnion (e : Operand) (word : List Char) (n : Nat) :
    toT word.length (powerUnion e word n) = matSum (word.length + 1) (toT word.length e) n := by
  induction n with
  | zero => exact toT_leafEps word.length word
  | succ n ih =>
    rw [show powerUnion e word (n + 1)
        = (powerUnion e word n).add (opPow e word (n + 1)) from rfl,
      toT_add word.length (powerUnion e word n) (opPow e word (n + 1))
        (powerUnion_wordLength e word n), ih, toT_opPow]
    rfl

lemma toA_opPow (e : Operand) (word : List Char) (n : Nat) :
    toA word.length (opPow e word n) = matPow (word.length + 2) (toA word.length e) n := by
  induction n with
  | zero => exact toA_leafEps word.length word
  | succ n ih =>
    rw [show opPow e word (n + 1) = (opPow e word n).mul e from rfl,
      toA_mul word.length (opPow e word n) e (opPow_wordLength e word n), ih]
    rfl

lemma toA_powerUnion (e : Operand) (word : List Char) (n : Nat) :
    toA word.length (powerUnion e word n) = matSum (word.length + 2) (toA word.length e) n := by
  induction n with
  | zero => exact toA_leafEps word.length word
  | succ n ih =>
    rw [show powerUnion e word (n + 1)
        = (powerUnion e word n).add (opPow e word (n + 1)) from rfl,
      toA_add word.length (powerUnion e word n) (opPow e word (n + 1))
        (powerUnion_wordLength e word n), ih, toA_opPow]
    rfl

/-! ### Padding: indices the source loops never touch stay false -/

/-- Pads of an operand relative to length `L`: all table entries outside the
ranges the C++ loops write remain `false`. -/
def Padded (L : Nat) (x : Operand) : Prop :=
  (∀ i len, ¬ (i < L ∧ 1 ≤ len ∧ len ≤ L - i) → x.containsSubstring i len = false) ∧
  (∀ p, ¬ (1 ≤ p ∧ p < L) → x.containsSuffixEqualsToPrefix p = false) ∧
  (∀ s, ¬ (1 ≤ s ∧ s < L) → x.containsPrefixEqualsToSuffix s = false)

lemma padded_leafEps (L : Nat) (W : List Char) : Padded L (Operand.leaf EPSILON W) :=
  ⟨fun i len _ => leafEps_containsSubstring W i len,
   fun p _ => leafEps_containsSuffixEqualsToPrefix W p,
   fun s _ => leafEps_containsPrefixEqualsToSuffix W s⟩

lemma padded_mul (L : Nat) (x y : Operand) (hx : x.wordLength = L) :
    Padded L (x.mul y) := by
  refine ⟨?_, ?_, ?_⟩
  · intro i len h
    show containsSubstringForMultiply x.wordLength x y i len = false
    rw [hx]
    exact containsSubstringForMultiply_out L x y i len h
  · intro p h
    show suffixEqualsToPrefixForMultiply x.wordLength x y p = false
    rw [hx]
    exact suffixEqualsToPrefixForMultiply_out L x y p h
  · intro s h
    show prefixEqualsToSuffixForMultiply x.wordLength x y s = false
    rw [hx]
    exact prefixEqualsToSuffixForMultiply_out L x y s h

lemma padded_add (L : Nat) (x y : Operand) (hx : x.wordLength = L)
    (hpx : Padded L x) (hpy : Padded L y) : Padded L (x.add y) := by
  refine ⟨?_, ?_, ?_⟩
  · intro i len h
    show (if i < x.wordLength ∧ len ≤ x.wordLength - i then
        x.containsSubstring i len || y.containsSubstring i len
      else x.containsSubstring i len) = false
    by_cases hgg : i < x.wordLength ∧ len ≤ x.wordLength - i
    · rw [if_pos hgg, hpx.1 i len h, hpy.1 i len h]
      rfl
    · rw [if_neg hgg]
      exact hpx.1 i len h
  · intro p h
    show (if 1 ≤ p ∧ p ≤ x.wordLength then
        x.containsSuffixEqualsToPrefix p || y.containsSuffixEqualsToPrefix p
      else x.containsSuffixEqualsToPrefix p) = false
    by_cases hgg : 1 ≤ p ∧ p ≤ x.wordLength
    · rw [if_pos hgg, hpx.2.1 p h, hpy.2.1 p h]
      rfl
    · rw [if_neg hgg]
      exact hpx.2.1 p h
  · intro s h
    show (if 1 ≤ s ∧ s ≤ x.wordLength then
        x.containsPrefixEqualsToSuffix s || y.containsPrefixEqualsToSuffix s
      else x.containsPrefixEqualsToSuffix s) = false
    by_cases hgg : 1 ≤ s ∧ s ≤ x.wordLength
    · rw [if_pos hgg, hpx.2.2 s h, hpy.2.2 s h]
      rfl
    · rw [if_neg hgg]
      exact hpx.2.2 s h

lemma padded_opPow (e : Operand) (word : List Char) (n : Nat) :
    Padded word.length (opPow e word n) := by
  cases n with
  | zero => exact padded_leafEps word.length word
  | succ n => exact padded_mul word.length (opPow e word n) e (opPow_wordLength e word n)

lemma padded_powerUnion (e : Operand) (word : List Char) (n : Nat) :
    Padded word.length (powerUnion e word n) := by
  induction n with
  | zero => exact padded_leafEps word.length word
  | succ n ih =>
    exact padded_add word.length (powerUnion e word n) (opPow e word (n + 1))
      (powerUnion_wordLength e word n) ih (padded_opPow e word (n + 1))

/-- C6: the `2L+2` bound of the Kleene-star loop is sufficient — performing
any number of further iterations `power ← power·e; accumulated ← accumulated +
power` leaves the accumulated Operand (every field) unchanged. -/
theorem kleeneStar_bound_sufficient (e : Operand) (word : List Char) (k : Nat) :
    kleeneStarN e word (2 * word.length + 2 + k)
      = kleeneStarN e word (2 * word.length + 2) := by
  rw [kleeneStarN_eq_powerUnion, kleeneStarN_eq_powerUnion]
  have hT : toT word.length (powerUnion e word (2 * word.length + 2 + k))
      = toT word.length (powerUnion e word (2 * word.length + 2)) := by
    rw [toT_powerUnion, toT_powerUnion,
      matSum_stab (word.length + 1) (toT word.length e)
        (toT_bounded word.length e) (2 * word.length + 2) k (by omega)]
  have hAm : toA word.length (powerUnion e word (2 * word.length + 2 + k))
      = toA word.length (powerUnion e word (2 * word.length + 2)) := by
    rw [toA_powerUnion, toA_powerUnion,
      matSum_stab (word.length + 2) (toA word.length e)
        (toA_bounded word.length e) (2 * word.length + 2) k (by omega)]
  have hp1 := padded_powerUnion e word (2 * word.length + 2 + k)
  have hp2 := padded_powerUnion e word (2 * word.length + 2)
  apply Operand.ext
  · funext i len
    by_cases h : i < word.length ∧ 1 ≤ len ∧ len ≤ word.length - i
    · have hent := congrFun (congrFun hT i) (i + len)
      rw [toT_lt word.length _ i (i + len) (by omega) (by omega) (by omega),
        toT_lt word.length _ i (i + len) (by omega) (by omega) (by omega),
        show i + len - i = len from by omega] at hent
      exact hent
    · rw [hp1.1 i len h, hp2.1 i len h]
  · have hent := congrFun (congrFun hT 0) 0
    rw [toT_diag word.length _ 0 (by omega), toT_diag word.length _ 0 (by omega)] at hent
    exact hent
  · have hent := congrFun (congrFun hAm 0) (word.length + 1)
    rw [toA_start_mw, toA_start_mw] at hent
    exact hent
  · funext p
    by_cases h : 1 ≤ p ∧ p < word.length
    · have hent := congrFun (congrFun hAm 0) p
      rw [toA_start_sp word.length _ p h.1 (by omega),
        toA_start_sp word.length _ p h.1 (by omega)] at hent
      exact hent
    · rw [hp1.2.1 p h, hp2.2.1 p h]
  · funext s
    by_cases h : 1 ≤ s ∧ s < word.length
    · have hent := congrFun (congrFun hAm (word.length - s)) (word.length + 1)
      rw [toA_ps word.length _ (word.length - s) (by omega) (by omega),
        toA_ps word.length _ (word.length - s) (by omega) (by omega),
        show word.length - (word.length - s) = s from by omega] at hent
      exact hent
    · rw [hp1.2.2 s h, hp2.2.2 s h]
  · rw [powerUnion_wordLength, powerUnion_wordLength]

end Solution
